import Mathlib

/-!
RikerBot, `rkr::IOCore` (src/io_core.cpp): framing, compression and encryption.

A shallow embedding of the I/O engine of `src/src/io_core.cpp`.

* Bytes are natural numbers below 256; a byte has its continuation bit set when it is
  at least 128.
* `Streambuf` follows `boost::asio::basic_streambuf`: one vector split into the bytes
  already consumed, the readable bytes and the put area.  A `mutable_buffer` is an
  offset into that vector together with a size, so that a region handed out by
  `prepare` keeps denoting the same memory after a later `commit`.
* The libraries the engine calls (Botan ciphers, zlib, the RSA helper, the system
  random number generator, the packet codec table) are parameters, collected in `Env`.
* `mcd::enc_varint`, `mcd::dec_varint`, `mcd::verify_varint` and `mcd::size_varint`
  live in `datautils.hpp`, which is not among the sources; they are modelled from
  section 4.1 of the specification.
* `exit(-1)` and an exception that leaves a handler end the run; `Outcome` records
  which of the two happened together with the events emitted up to that point.
* A read or a write through a pointer that leaves the vector of its stream buffer has
  no defined behaviour in C++: `Streambuf.load` and `Streambuf.store` give no result
  there, and the engine ends in `Outcome.undefined`.
-/

namespace rkr

/-! ## Varint codec (`mcd`, modelled from the specification) -/

namespace mcd

/-- Worker of `enc_varint`: at most `n + 1` groups of seven bits, low group first, the
high bit of a byte telling that another byte follows. -/
def enc_varint_go : Nat → Nat → List Nat
  | 0, v => [v % 128]
  | n + 1, v => if v < 128 then [v] else (v % 128 + 128) :: enc_varint_go n (v / 128)

/-- Modelled from the spec: `mcd::enc_varint` of datautils, absent from the sources.
"writes between 1 and 5 bytes (32-bit) using 7-bit little-endian groups with the high
bit as continuation"; the value is an unsigned 32-bit quantity. -/
def enc_varint (v : Nat) : List Nat := enc_varint_go 4 (v % 2 ^ 32)

/-- Modelled from the spec: `mcd::size_varint` of datautils, "byte count required to
encode". -/
def size_varint (v : Nat) : Nat := (enc_varint v).length

/-- Worker of `dec_varint`: `n` bytes may still be read, `shift` is the weight of the
next group, `acc` the value so far, `used` the number of bytes read so far. -/
def dec_varint_go : Nat → Nat → Nat → Nat → List Nat → Option (Nat × Nat)
  | 0, _, _, _, _ => none
  | _ + 1, _, _, _, [] => none
  | n + 1, shift, acc, used, b :: bs =>
    if b < 128 then some (acc + b * shift, used + 1)
    else dec_varint_go n (shift * 128) (acc + (b % 128) * shift) (used + 1) bs

/-- Modelled from the spec: `mcd::dec_varint` of datautils.  "reads up to 5 bytes; fails
Malformed if the 5th byte still has the continuation bit set; fails Truncated if the
source ends before a terminating byte".  The result is the value and the number of
bytes taken from the stream; `none` stands for either failure. -/
def dec_varint (src : List Nat) : Option (Nat × Nat) := dec_varint_go 5 1 0 0 src

/-- Result of `mcd::verify_varint`: the number of bytes of a complete varint,
`VARNUM_OVERRUN` or `VARNUM_INVALID`. -/
inductive Varnum where
  | valid (n : Nat)
  | overrun
  | invalid
  deriving DecidableEq, Repr

/-- Worker of `verify_varint`: `n` more bytes may be inspected, `seen` were. -/
def verify_varint_go : Nat → Nat → List Nat → Varnum
  | 0, _, _ => Varnum.invalid
  | _ + 1, _, [] => Varnum.overrun
  | n + 1, seen, b :: bs =>
    if b < 128 then Varnum.valid (seen + 1) else verify_varint_go n (seen + 1) bs

/-- Modelled from the spec: `mcd::verify_varint` of datautils, a "non-consuming
inspection": `Valid(n_bytes)`, `Overrun` ("fewer than 5 bytes and still continuation")
or `Invalid` (five bytes, all with the continuation bit set). -/
def verify_varint (buf : List Nat) : Varnum := verify_varint_go 5 0 buf

/-- Protocol state, `mcd::HANDSHAKING` and the following enumerators. -/
inductive State where
  | HANDSHAKING
  | STATUS
  | LOGIN
  | PLAY
  deriving DecidableEq, Repr

/-- Packet direction, `mcd::SERVERBOUND` and `mcd::CLIENTBOUND`. -/
inductive Direction where
  | SERVERBOUND
  | CLIENTBOUND
  deriving DecidableEq, Repr

/-- An outbound `mcd::Packet` as `encode_packet` sees it: its id, its name and the
bytes that `packet.encode` writes to the stream. -/
structure Packet where
  packet_id : Nat
  name : String
  body : List Nat
  deriving DecidableEq, Repr

/-- Payload of `mcd::ClientboundEncryptionBegin`. -/
structure ClientboundEncryptionBegin where
  publicKey : List Nat
  verifyToken : List Nat
  deriving DecidableEq, Repr

/-- Payload of `mcd::ClientboundCompress`. -/
structure ClientboundCompress where
  threshold : Nat
  deriving DecidableEq, Repr

/-- Payload of `mcd::ServerboundEncryptionBegin`. -/
structure ServerboundEncryptionBegin where
  sharedSecret : List Nat
  verifyToken : List Nat
  deriving DecidableEq, Repr

end mcd

/-! ## `boost::asio::streambuf` -/

/-- A `boost::asio::mutable_buffer`: a pointer, kept as an offset into the vector of the
stream buffer it was prepared from, and a size. -/
structure mutable_buffer where
  data : Nat
  size : Nat
  deriving DecidableEq, Repr

/-- The operator `+=` of `mutable_buffer`: skip `n` bytes, at most the whole buffer. -/
def mutable_buffer.advance (b : mutable_buffer) (n : Nat) : mutable_buffer :=
  { data := b.data + min n b.size, size := b.size - min n b.size }

/-- The vector of a `boost::asio::basic_streambuf`, cut at the get and the put pointer:
`gone` is `buffer_[0, gptr)`, `data` the readable `buffer_[gptr, pptr)` and `put` the
put area `buffer_[pptr, epptr)`. -/
structure Streambuf where
  gone : List Nat
  data : List Nat
  put : List Nat
  deriving DecidableEq, Repr

/-- The largest size of a stream buffer, `max_size_`: the largest `std::size_t` of a
64-bit machine. -/
def max_size : Nat := 2 ^ 64 - 1

/-- Growth step of the put area when a stream write overflows it, `buffer_delta`. -/
def buffer_delta : Nat := 128

namespace Streambuf

/-- A stream buffer as its constructor leaves it: `buffer_delta` bytes of put area. -/
def init : Streambuf := { gone := [], data := [], put := List.replicate buffer_delta 0 }

/-- The whole vector. -/
def mem (b : Streambuf) : List Nat := b.gone ++ b.data ++ b.put

/-- Number of readable bytes, `size()`. -/
def size (b : Streambuf) : Nat := b.data.length

/-- Offset of the put pointer in the vector. -/
def pptr (b : Streambuf) : Nat := b.gone.length + b.data.length

/-- The member `reserve(n)`: nothing when the put area has `n` bytes; otherwise the
readable bytes are moved to the front of the vector and the vector is resized (new
bytes are zero) so that the put area has exactly `n` bytes. -/
def reserve (b : Streambuf) (n : Nat) : Streambuf :=
  if n ≤ b.put.length then b
  else
    let rest := if b.gone = [] then b.put else b.mem.drop b.data.length
    { gone := [], data := b.data, put := rest ++ List.replicate (n - rest.length) 0 }

/-- Whether `prepare(n)` succeeds: the put area is large enough already, or the vector
may grow to hold the readable bytes and `n` more without passing `max_size`. -/
def fits (b : Streambuf) (n : Nat) : Prop :=
  n ≤ b.put.length ∨ (n ≤ max_size ∧ b.data.length ≤ max_size - n)

instance (b : Streambuf) (n : Nat) : Decidable (b.fits n) :=
  inferInstanceAs
    (Decidable (n ≤ b.put.length ∨ (n ≤ max_size ∧ b.data.length ≤ max_size - n)))

/-- The member `prepare(n)`: `reserve(n)`, then the first `n` bytes of the put area as a
`mutable_buffer`; `none` when `reserve` throws `std::length_error`. -/
def prepare (b : Streambuf) (n : Nat) : Option (Streambuf × mutable_buffer) :=
  if b.fits n then
    some (b.reserve n, { data := (b.reserve n).pptr, size := n })
  else none

/-- The member `commit(n)`: the first `n` bytes of the put area (at most all of it)
become readable. -/
def commit (b : Streambuf) (n : Nat) : Streambuf :=
  { b with data := b.data ++ b.put.take n, put := b.put.drop n }

/-- The member `consume(n)`: drop the first `n` readable bytes (at most all of them). -/
def consume (b : Streambuf) (n : Nat) : Streambuf :=
  { b with gone := b.gone ++ b.data.take n, data := b.data.drop n }

/-- One character written through a `std::ostream` on the buffer (`overflow`): a full
put area is first extended by `buffer_delta` bytes, then the character is stored at the
put pointer, which moves on; the character is readable at once. -/
def sputc (b : Streambuf) (c : Nat) : Streambuf :=
  let b1 := if b.put = [] then b.reserve buffer_delta else b
  { b1 with data := b1.data ++ [c], put := b1.put.drop 1 }

/-- A run of characters written through a `std::ostream` on the buffer. -/
def sputn (b : Streambuf) (cs : List Nat) : Streambuf := cs.foldl sputc b

/-- The bytes `[p, p + n)` of the vector; `none` when the region is not inside the
vector (such a read is out of bounds in the source). -/
def load (b : Streambuf) (p n : Nat) : Option (List Nat) :=
  if p + n ≤ b.mem.length then some ((b.mem.drop p).take n) else none

/-- A vector with `bytes` written from offset `p` on; `none` when the bytes do not all
land inside the vector (such a write is out of bounds in the source). -/
def poke (m : List Nat) (p : Nat) (bytes : List Nat) : Option (List Nat) :=
  if p + bytes.length ≤ m.length then
    some (m.take p ++ bytes ++ m.drop (p + bytes.length))
  else none

/-- The buffer after `bytes` were written at offset `p` of its vector (`std::memcpy`
into a prepared region, a socket read, or a cipher working in place); `none` when the
write is not inside the vector. -/
def store (b : Streambuf) (p : Nat) (bytes : List Nat) : Option Streambuf :=
  match poke b.mem p bytes with
  | none => none
  | some m =>
    some
      { gone := m.take b.gone.length,
        data := (m.drop b.gone.length).take b.data.length,
        put := m.drop (b.gone.length + b.data.length) }

end Streambuf

/-! ## The libraries behind the engine -/

/-- A Botan `Cipher_Mode` in a stream mode (CFB): `start key iv` is `clear()`,
`set_key(key)` and `start(iv)`; `step` sends one byte through `process`, which works in
place and byte by byte. -/
structure Cipher (σ : Type) where
  start : List Nat → List Nat → σ
  step : σ → Nat → σ × Nat

/-- The member `process` of a cipher on a run of bytes: the state after the last byte
and the bytes produced. -/
def Cipher.process {σ : Type} (c : Cipher σ) : σ → List Nat → σ × List Nat
  | s, [] => (s, [])
  | s, b :: bs =>
    let r := c.step s b
    let t := Cipher.process c r.1 bs
    (t.1, r.2 :: t.2)

/-- What a decoded clientbound packet carries, as far as the engine's own callbacks
read it. -/
inductive Payload where
  | encryption_begin (p : mcd.ClientboundEncryptionBegin)
  | compress (p : mcd.ClientboundCompress)
  | other
  deriving DecidableEq, Repr

/-- A clientbound packet as the codec table decodes it: the number of bytes its
`decode` read, its name and its payload. -/
structure Decoded where
  used : Nat
  name : String
  payload : Payload
  deriving DecidableEq, Repr

/-- The collaborators of the engine that are not in the sources.

* `encryption`, `decryption`: the two Botan `"AES-128/CFB"` cipher modes;
* `compress_start level`, `compress_update`: `compressor->start(level)` and
  `compressor->update(buf, 0, true)` of the zlib compressor, `decompress_start` the
  started decompressor;
* `rng_byte`: one byte of `Botan::system_rng()`;
* `load_key`: whether `Botan::X509::load_key` accepts the key, `pk_encrypt key rng msg`
  the `EME-PKCS1-v1_5` encryption under it (`none` when Botan throws);
* `protocol_cstrings`: the table `mcd::protocol_cstrings` of event names, by state,
  direction and packet id; the bus runs a callback of the engine when the event emitted
  carries the name the callback was registered under (serverbound packets are named
  `Serverbound...`, clientbound ones `Clientbound...`);
* `decode state id bytes`: `mcd::make_packet(state, CLIENTBOUND, id)` followed by
  `packet->decode`, reading from `bytes`: the number of bytes read, the name of the
  packet and its payload, `none` when the decoder throws;
* `serverbound_encryption_begin`: the packet `mcd::ServerboundEncryptionBegin` with the
  given fields (its id, its name and the bytes its `encode` writes). -/
structure Env (σ κ ρ : Type) where
  encryption : Cipher σ
  decryption : Cipher σ
  compress_start : Nat → κ
  compress_update : κ → List Nat → κ × List Nat
  decompress_start : κ
  rng_byte : ρ → ρ × Nat
  load_key : List Nat → Bool
  pk_encrypt : List Nat → ρ → List Nat → Option (ρ × List Nat)
  protocol_cstrings : mcd.State → mcd.Direction → Nat → String
  decode : mcd.State → Nat → List Nat → Option Decoded
  serverbound_encryption_begin : mcd.ServerboundEncryptionBegin → mcd.Packet

/-- The call `rng.randomize(out, n)`: `n` bytes drawn one after the other. -/
def randomize {σ κ ρ : Type} (env : Env σ κ ρ) : ρ → Nat → ρ × List Nat
  | r, 0 => (r, [])
  | r, n + 1 =>
    let d := env.rng_byte r
    let t := randomize env d.1 n
    (t.1, d.2 :: t.2)

/-! ## The engine -/

/-- What the event bus is asked to emit: the kill event, the connect event, or the event
of a packet, with the type tag passed along. -/
inductive Event where
  | kill
  | io_connect
  | packet (state : mcd.State) (dir : mcd.Direction) (id : Nat) (type : String)
      (body : List Nat)
  deriving DecidableEq, Repr

/-- How a piece of the engine ends: it returns, the process leaves through `exit`, an
exception leaves it, or it reads or writes memory outside the vector of a stream buffer,
from where on the behaviour of the program is undefined.  The last three carry the
events emitted until then. -/
inductive Outcome (α : Type) where
  | ok (a : α)
  | exit (code : Int) (emitted : List Event)
  | throw (what : String) (emitted : List Event)
  | undefined (emitted : List Event)
  deriving DecidableEq, Repr

/-- Sequencing of outcomes: the second step runs only when the first returned. -/
def Outcome.bind {α β : Type} (o : Outcome α) (f : α → Outcome β) : Outcome β :=
  match o with
  | Outcome.ok a => f a
  | Outcome.exit c e => Outcome.exit c e
  | Outcome.throw w e => Outcome.throw w e
  | Outcome.undefined e => Outcome.undefined e

/-- Size of the array `shared_secret`.  Modelled from the spec: the array is declared in
io_core.hpp, absent from the sources; the secret is "a 16-byte symmetric key". -/
def shared_secret_size : Nat := 16

/-- The members of `rkr::IOCore` (and the function-local statics of `encode_packet`)
that the framing code reads or writes.  `emitted` is the list of events handed to the
event bus, oldest first; `rng` is the state of the system random number generator. -/
structure IOCore (σ κ ρ : Type) where
  state : mcd.State
  kill : Bool
  compressed : Bool
  encrypted : Bool
  threshold : Nat
  shared_secret : List Nat
  encryptor : σ
  decryptor : σ
  compressor : κ
  decompressor : κ
  rng : ρ
  in_buf : Streambuf
  out_buf : Streambuf
  pak_buf : Streambuf
  header_buf : Streambuf
  read_buf : mutable_buffer
  emitted : List Event
  deriving DecidableEq, Repr

section engine

variable {σ κ ρ : Type}

/-- The call `ev->emit(...)`, as far as recording goes. -/
def emit (io : IOCore σ κ ρ) (e : Event) : IOCore σ κ ρ :=
  { io with emitted := io.emitted ++ [e] }

/-- Method `IOCore::enable_encryption`, the callback registered for
`"ServerboundEncryptionBegin"`. -/
def enable_encryption (env : Env σ κ ρ) (io : IOCore σ κ ρ) : IOCore σ κ ρ :=
  { io with
    encryptor := env.encryption.start io.shared_secret io.shared_secret,
    decryptor := env.decryption.start io.shared_secret io.shared_secret,
    encrypted := true }

/-- Method `IOCore::enable_compression`, the callback registered for
`"ClientboundCompress"`. -/
def enable_compression (env : Env σ κ ρ) (data : mcd.ClientboundCompress)
    (io : IOCore σ κ ρ) : IOCore σ κ ρ :=
  { io with
    threshold := data.threshold,
    compressor := env.compress_start 1,
    decompressor := env.decompress_start }

/-- What `encode_packet` has assembled when it reaches the test of `encrypted`: the
engine, the buffer `write_buf` (already advanced past the header) and the three sizes. -/
structure Assembled (σ κ ρ : Type) where
  io : IOCore σ κ ρ
  write_buf : mutable_buffer
  header_size : Nat
  packet_size : Nat
  write_size : Nat

/-- The two `std::memcpy` calls of `encode_packet` into the region prepared in
`out_buf`: the header at the start of `write_buf`, then, `write_buf` advanced by
`header_size`, the payload.  `none` when a copy is not inside the vector. -/
def copy_frame (out_buf : Streambuf) (write_buf : mutable_buffer) (header_size : Nat)
    (header payload : List Nat) : Option (Streambuf × mutable_buffer) :=
  match out_buf.store write_buf.data header with
  | none => none
  | some out_buf1 =>
    match out_buf1.store (write_buf.advance header_size).data payload with
    | none => none
    | some out_buf2 => some (out_buf2, write_buf.advance header_size)

/-- Lines 79 to 112 of `IOCore::encode_packet`: the id and the body go to `pak_buf`,
the header to `header_buf`, and both are copied into a region prepared at the end of
`out_buf`.  `throw` when `out_buf.prepare` does. -/
def encode_packet_assemble (env : Env σ κ ρ) (packet : mcd.Packet) (io : IOCore σ κ ρ) :
    Outcome (Assembled σ κ ρ) :=
  let pak_buf := (io.pak_buf.sputn (mcd.enc_varint packet.packet_id)).sputn packet.body
  let packet_size := pak_buf.size
  if io.compressed ∧ packet_size > io.threshold then
    let sec := env.compress_update io.compressor (pak_buf.data.take packet_size)
    let sec_vec := sec.2
    let total_size := sec_vec.length + mcd.size_varint packet_size
    let header_buf :=
      (io.header_buf.sputn (mcd.enc_varint total_size)).sputn (mcd.enc_varint packet_size)
    let header_size := header_buf.size
    let write_size := header_size + sec_vec.length
    match io.out_buf.prepare write_size with
    | none => Outcome.throw "std::length_error" io.emitted
    | some (out_buf, write_buf) =>
      match copy_frame out_buf write_buf header_size (header_buf.data.take header_size)
          sec_vec with
      | none => Outcome.undefined io.emitted
      | some (out_buf, write_buf) =>
        Outcome.ok
          { io := { io with pak_buf := pak_buf, header_buf := header_buf, out_buf := out_buf,
                            compressor := sec.1 },
            write_buf := write_buf, header_size := header_size, packet_size := packet_size,
            write_size := write_size }
  else
    let header_buf :=
      if io.compressed then
        (io.header_buf.sputn (mcd.enc_varint (packet_size + 1))).sputc 0
      else io.header_buf.sputn (mcd.enc_varint packet_size)
    let header_size := header_buf.size
    let write_size := packet_size + header_size
    match io.out_buf.prepare write_size with
    | none => Outcome.throw "std::length_error" io.emitted
    | some (out_buf, write_buf) =>
      match copy_frame out_buf write_buf header_size (header_buf.data.take header_size)
          (pak_buf.data.take packet_size) with
      | none => Outcome.undefined io.emitted
      | some (out_buf, write_buf) =>
        Outcome.ok
          { io := { io with pak_buf := pak_buf, header_buf := header_buf, out_buf := out_buf },
            write_buf := write_buf, header_size := header_size, packet_size := packet_size,
            write_size := write_size }

/-- Lines 113 to 115 of `IOCore::encode_packet`: when `encrypted`, the encryptor
processes `write_size` bytes in place from `write_buf.data()` on.  The behaviour is
undefined when these bytes are not all inside the vector of `out_buf`. -/
def encrypt_write_buf (env : Env σ κ ρ) (a : Assembled σ κ ρ) : Outcome (IOCore σ κ ρ) :=
  if a.io.encrypted then
    match a.io.out_buf.load a.write_buf.data a.write_size with
    | none => Outcome.undefined a.io.emitted
    | some bytes =>
      match a.io.out_buf.store a.write_buf.data
          (env.encryption.process a.io.encryptor bytes).2 with
      | none => Outcome.undefined a.io.emitted
      | some out_buf =>
        Outcome.ok
          { a.io with
            encryptor := (env.encryption.process a.io.encryptor bytes).1,
            out_buf := out_buf }
  else Outcome.ok a.io

/-- Lines 116 to 118 of `IOCore::encode_packet`: the region is committed and the two
scratch buffers are consumed. -/
def commit_frame (a : Assembled σ κ ρ) (io : IOCore σ κ ρ) : IOCore σ κ ρ :=
  { io with
    out_buf := io.out_buf.commit a.write_size,
    header_buf := io.header_buf.consume a.header_size,
    pak_buf := io.pak_buf.consume a.packet_size }

/-- Lines 113 to 118 of `IOCore::encode_packet`: the encryptor step, then the region is
committed and the two scratch buffers are consumed. -/
def encode_packet_commit (env : Env σ κ ρ) (a : Assembled σ κ ρ) : Outcome (IOCore σ κ ρ) :=
  (encrypt_write_buf env a).bind (fun io => Outcome.ok (commit_frame a io))

/-- Method `IOCore::encode_packet` up to, and without, the final `ev->emit`: the state
in which the subscribers of the serverbound event run. -/
def encode_packet_framed (env : Env σ κ ρ) (packet : mcd.Packet) (io : IOCore σ κ ρ) :
    Outcome (IOCore σ κ ρ) :=
  (encode_packet_assemble env packet io).bind (encode_packet_commit env)

/-- The final `ev->emit` of `encode_packet`: the event of
`packet_event_ids[state][SERVERBOUND][packet_id]` is recorded and the bus runs the
engine's own callback when the event is the one named `"ServerboundEncryptionBegin"`. -/
def emit_serverbound (env : Env σ κ ρ) (packet : mcd.Packet) (io : IOCore σ κ ρ) :
    IOCore σ κ ρ :=
  let io1 := emit io
    (Event.packet io.state mcd.Direction.SERVERBOUND packet.packet_id
      ("mcd::" ++ packet.name ++ " *") packet.body)
  if env.protocol_cstrings io.state mcd.Direction.SERVERBOUND packet.packet_id
      = "ServerboundEncryptionBegin" then
    enable_encryption env io1
  else io1

/-- Method `IOCore::encode_packet`: the frame is laid out and committed, then the
serverbound event is emitted. -/
def encode_packet (env : Env σ κ ρ) (packet : mcd.Packet) (io : IOCore σ κ ρ) :
    Outcome (IOCore σ κ ρ) :=
  (encode_packet_framed env packet io).bind
    (fun io1 => Outcome.ok (emit_serverbound env packet io1))

/-- Method `IOCore::encryption_begin_handler`, the callback registered for
`"ClientboundEncryptionBegin"`: load the key, draw the shared secret, encrypt the secret
and the verify token under the key and send the response with `encode_packet`. -/
def encryption_begin_handler (env : Env σ κ ρ) (packet : mcd.ClientboundEncryptionBegin)
    (io : IOCore σ κ ρ) : Outcome (IOCore σ κ ρ) :=
  if env.load_key packet.publicKey then
    let drawn := randomize env io.rng shared_secret_size
    let io := { io with rng := drawn.1, shared_secret := drawn.2 }
    match env.pk_encrypt packet.publicKey io.rng io.shared_secret with
    | none => Outcome.throw "Botan::Exception" io.emitted
    | some (rng1, result1) =>
      match env.pk_encrypt packet.publicKey rng1 packet.verifyToken with
      | none => Outcome.throw "Botan::Exception" io.emitted
      | some (rng2, result2) =>
        encode_packet env
          (env.serverbound_encryption_begin { sharedSecret := result1, verifyToken := result2 })
          { io with rng := rng2 }
  else Outcome.throw "Botan::Decoding_Error" io.emitted

/-- Method `IOCore::connect_handler`: a failed connect ends the process; otherwise both
flags are cleared and the connect event is emitted. -/
def connect_handler (failed : Bool) (io : IOCore σ κ ρ) : Outcome (IOCore σ κ ρ) :=
  if failed then Outcome.exit (-1) io.emitted
  else Outcome.ok (emit { io with compressed := false, encrypted := false } Event.io_connect)

/-- Method `IOCore::write_handler`: a failed write ends the process; otherwise the bytes
written are consumed from `out_buf`. -/
def write_handler (failed : Bool) (len : Nat) (io : IOCore σ κ ρ) : Outcome (IOCore σ κ ρ) :=
  if failed then Outcome.exit (-1) io.emitted
  else Outcome.ok { io with out_buf := io.out_buf.consume len }

/-- Subtraction of two `std::size_t` values: the difference modulo `2 ^ 64`. -/
def size_t_sub (a b : Nat) : Nat := (a % 2 ^ 64 + 2 ^ 64 - b % 2 ^ 64) % 2 ^ 64

/-- The asynchronous operation a handler leaves outstanding on the socket: none, an
`async_read_some` into `buf` completing in `header_handler`, or an `async_read` that
fills `buf` and completes in `read_packet_handler`. -/
inductive Pending where
  | idle
  | read_some (buf : mutable_buffer)
  | read (buf : mutable_buffer)
  deriving DecidableEq, Repr

/-- The call `decryptor->process(read_buf.data(), len)`, done when `encrypted`: `len`
bytes of `in_buf` are decrypted in place, from the start of `read_buf` on.  The
behaviour is undefined when these bytes are not all inside the vector of `in_buf`. -/
def decrypt_read_buf (env : Env σ κ ρ) (len : Nat) (io : IOCore σ κ ρ) :
    Outcome (IOCore σ κ ρ) :=
  if io.encrypted then
    match io.in_buf.load io.read_buf.data len with
    | none => Outcome.undefined io.emitted
    | some bytes =>
      match io.in_buf.store io.read_buf.data (env.decryption.process io.decryptor bytes).2 with
      | none => Outcome.undefined io.emitted
      | some in_buf =>
        Outcome.ok
          { io with
            decryptor := (env.decryption.process io.decryptor bytes).1,
            in_buf := in_buf }
  else Outcome.ok io

/-- Lines 153 to 159 of `IOCore::header_handler` (the same lines open
`read_packet_handler`): decrypt when `encrypted`, then commit the `len` bytes read. -/
def commit_read (env : Env σ κ ρ) (len : Nat) (io : IOCore σ κ ρ) : Outcome (IOCore σ κ ρ) :=
  (decrypt_read_buf env len io).bind
    (fun io1 => Outcome.ok { io1 with in_buf := io1.in_buf.commit len })

/-- Method `IOCore::header_handler`, called when an `async_read_some` has put `len`
bytes into the region it was given.  The result is the engine and the read it started. -/
def header_handler (env : Env σ κ ρ) (failed : Bool) (len : Nat) (io : IOCore σ κ ρ) :
    Outcome (IOCore σ κ ρ × Pending) :=
  if failed then Outcome.exit (-1) io.emitted
  else
    (commit_read env len io).bind (fun io =>
      match mcd.verify_varint io.in_buf.data with
      | mcd.Varnum.invalid => Outcome.exit (-1) io.emitted
      | mcd.Varnum.overrun =>
        match io.in_buf.prepare (size_t_sub 5 io.in_buf.size) with
        | none => Outcome.throw "std::length_error" io.emitted
        | some (in_buf, buf) =>
          Outcome.ok ({ io with in_buf := in_buf }, Pending.read_some buf)
      | mcd.Varnum.valid _ =>
        match mcd.dec_varint io.in_buf.data with
        | none => Outcome.throw "std::ios_base::failure" io.emitted
        | some (varint, used) =>
          let in_buf := io.in_buf.consume used
          match in_buf.prepare (size_t_sub varint in_buf.size) with
          | none => Outcome.throw "std::length_error" io.emitted
          | some (in_buf, buf) =>
            Outcome.ok ({ io with in_buf := in_buf, read_buf := buf }, Pending.read buf))

/-- The `ev->emit` that ends `read_packet_handler`: the clientbound event is recorded
and the bus runs the engine's own callbacks, by the name of the event. -/
def emit_clientbound (env : Env σ κ ρ) (packet_id : Nat) (d : Decoded) (body : List Nat)
    (io : IOCore σ κ ρ) : Outcome (IOCore σ κ ρ) :=
  let io1 := emit io
    (Event.packet io.state mcd.Direction.CLIENTBOUND packet_id ("mcd::" ++ d.name ++ " *") body)
  let name := env.protocol_cstrings io.state mcd.Direction.CLIENTBOUND packet_id
  match d.payload with
  | Payload.encryption_begin p =>
    if name = "ClientboundEncryptionBegin" then encryption_begin_handler env p io1
    else Outcome.ok io1
  | Payload.compress p =>
    if name = "ClientboundCompress" then Outcome.ok (enable_compression env p io1)
    else Outcome.ok io1
  | Payload.other => Outcome.ok io1

/-- Lines 186 to 201 of `IOCore::read_packet_handler`, the branch taken when not
`compressed`: the id and the body are decoded from the readable bytes of `in_buf` and
the clientbound event is emitted; either decoder failing ends in `exit(-1)`. -/
def decode_packet (env : Env σ κ ρ) (io : IOCore σ κ ρ) : Outcome (IOCore σ κ ρ) :=
  match mcd.dec_varint io.in_buf.data with
  | none => Outcome.exit (-1) io.emitted
  | some (packet_id, used) =>
    let io := { io with in_buf := io.in_buf.consume used }
    match env.decode io.state packet_id io.in_buf.data with
    | none => Outcome.exit (-1) io.emitted
    | some d =>
      emit_clientbound env packet_id d (io.in_buf.data.take d.used)
        { io with in_buf := io.in_buf.consume d.used }

/-- Method `IOCore::read_packet_handler`, called when the `async_read` started by
`header_handler` has filled `read_buf` with `len` bytes. -/
def read_packet_handler (env : Env σ κ ρ) (failed : Bool) (len : Nat) (io : IOCore σ κ ρ) :
    Outcome (IOCore σ κ ρ) :=
  if failed then Outcome.exit (-1) io.emitted
  else
    (commit_read env len io).bind (fun io =>
      if ¬ io.compressed then decode_packet env io
      else Outcome.throw "Compression Unimplemented" io.emitted)

/-- The socket read that precedes a handler: `bytes` arrive in the region `buf` of
`in_buf`.  The behaviour is undefined when they do not land inside the vector. -/
def receive (buf : mutable_buffer) (bytes : List Nat) (io : IOCore σ κ ρ) :
    Outcome (IOCore σ κ ρ) :=
  match io.in_buf.store buf.data (bytes.take buf.size) with
  | none => Outcome.undefined io.emitted
  | some in_buf => Outcome.ok { io with in_buf := in_buf }

/-- Number of bytes an `async_read_some` into `buf` completes with: the size wished by
the schedule `chunks` (all the region can take when no wish is left), at least one byte,
cut to the size of the region and to what has arrived. -/
def read_some_len (chunks : List Nat) (buf : mutable_buffer) (incoming : List Nat) : Nat :=
  min (max 1 (chunks.headD buf.size)) (min buf.size incoming.length)

/-- Method `IOCore::run` against a peer: `incoming` are the bytes the peer has sent and
the socket has not handed over yet, `chunks` the sizes the coming `async_read_some`
completions would like to have (each is cut to what the region can take and to what has
arrived, and is at least one byte; with no wish left a completion takes all it can).
`Pending.idle` is the top of the loop.  A pending write completes at once.  The run
stops when nothing more arrives for the outstanding read, or when `n` steps were made. -/
def run (env : Env σ κ ρ) : Nat → List Nat → List Nat → Pending → IOCore σ κ ρ →
    Outcome (IOCore σ κ ρ)
  | 0, _, _, _, io => Outcome.ok io
  | n + 1, chunks, incoming, Pending.idle, io =>
    if io.kill then Outcome.ok (emit io Event.kill)
    else
      let io := { io with out_buf := io.out_buf.consume io.out_buf.size }
      match io.in_buf.prepare 5 with
      | none => Outcome.throw "std::length_error" io.emitted
      | some (in_buf, buf) =>
        run env n chunks incoming (Pending.read_some buf)
          { io with in_buf := in_buf, read_buf := buf }
  | n + 1, chunks, incoming, Pending.read_some buf, io =>
    if incoming = [] then Outcome.ok io
    else
      let len := read_some_len chunks buf incoming
      ((receive buf (incoming.take len) io).bind (header_handler env false len)).bind
        (fun r => run env n chunks.tail (incoming.drop len) r.2 r.1)
  | n + 1, chunks, incoming, Pending.read buf, io =>
    if incoming.length < buf.size then Outcome.ok io
    else
      ((receive buf (incoming.take buf.size) io).bind
          (read_packet_handler env false buf.size)).bind
        (fun io1 => run env n chunks (incoming.drop buf.size) Pending.idle io1)

/-- The id and the body of `packet` as `encode_packet` writes them to `pak_buf`. -/
def packet_bytes (packet : mcd.Packet) : List Nat :=
  mcd.enc_varint packet.packet_id ++ packet.body

/-- The header `encode_packet` writes to `header_buf` for `packet` in the framing mode
of `io`, `L` being the length of the packet bytes: `varint(L)` without compression,
`varint(L + 1) 0` with compression when `L` does not exceed the threshold, and
`varint(len(C) + sizeof(varint(L))) varint(L)` otherwise, `C` being the compressor's
output. -/
def frame_header (env : Env σ κ ρ) (packet : mcd.Packet) (io : IOCore σ κ ρ) : List Nat :=
  let B := packet_bytes packet
  if io.compressed ∧ B.length > io.threshold then
    let C := (env.compress_update io.compressor B).2
    mcd.enc_varint (C.length + mcd.size_varint B.length) ++ mcd.enc_varint B.length
  else if io.compressed then mcd.enc_varint (B.length + 1) ++ [0]
  else mcd.enc_varint B.length

/-- What follows the header in the frame of `packet`: the compressor's output on the
packet bytes when `compressed` and their length exceeds the threshold, the packet bytes
themselves otherwise. -/
def frame_payload (env : Env σ κ ρ) (packet : mcd.Packet) (io : IOCore σ κ ρ) : List Nat :=
  let B := packet_bytes packet
  if io.compressed ∧ B.length > io.threshold then (env.compress_update io.compressor B).2
  else B

/-- The bytes `encode_packet` lays out for `packet` in the framing mode of `io`, before
any encryption, when it is entered with empty scratch buffers. -/
def wire_frame (env : Env σ κ ρ) (packet : mcd.Packet) (io : IOCore σ κ ρ) : List Nat :=
  frame_header env packet io ++ frame_payload env packet io

/-- Whether the region the encryptor of `encode_packet` works on when `encrypted`,
`write_size` bytes from the end of the header on, lies inside the vector of `out_buf`:
the put area that `prepare` leaves holds `header_size` bytes more than the frame. -/
def encryptor_stays_inside (env : Env σ κ ρ) (packet : mcd.Packet) (io : IOCore σ κ ρ) : Prop :=
  (frame_header env packet io).length + (wire_frame env packet io).length
    ≤ (io.out_buf.reserve (wire_frame env packet io).length).put.length

instance (env : Env σ κ ρ) (packet : mcd.Packet) (io : IOCore σ κ ρ) :
    Decidable (encryptor_stays_inside env packet io) :=
  inferInstanceAs
    (Decidable ((frame_header env packet io).length + (wire_frame env packet io).length
      ≤ (io.out_buf.reserve (wire_frame env packet io).length).put.length))

/-- The value an outcome returned, if it returned. -/
def Outcome.get? {α : Type} : Outcome α → Option α
  | Outcome.ok a => some a
  | Outcome.exit _ _ => none
  | Outcome.throw _ _ => none
  | Outcome.undefined _ => none

/-- The events emitted by the time a piece of the engine ended. -/
def events : Outcome (IOCore σ κ ρ) → List Event
  | Outcome.ok io => io.emitted
  | Outcome.exit _ e => e
  | Outcome.throw _ e => e
  | Outcome.undefined e => e

end engine

/-! ## A small instance of the collaborators, for concrete runs -/

/-- A byte-wise cipher with feedback, in the manner of CFB: the state is the last
ciphertext byte, the key stream byte is the state plus one. -/
def demo_encryption : Cipher Nat where
  start := fun key iv => (key.sum + iv.sum) % 256
  step := fun s b => ((b + s + 1) % 256, (b + s + 1) % 256)

/-- The decrypting side of `demo_encryption`. -/
def demo_decryption : Cipher Nat where
  start := fun key iv => (key.sum + iv.sum) % 256
  step := fun s c => (c % 256, (c + 256 - (s + 1) % 256) % 256)

/-- Event names of the demo codec table. -/
def demo_cstrings : mcd.State → mcd.Direction → Nat → String
  | mcd.State.LOGIN, mcd.Direction.SERVERBOUND, 1 => "ServerboundEncryptionBegin"
  | mcd.State.LOGIN, mcd.Direction.CLIENTBOUND, 1 => "ClientboundEncryptionBegin"
  | mcd.State.LOGIN, mcd.Direction.CLIENTBOUND, 3 => "ClientboundCompress"
  | _, mcd.Direction.SERVERBOUND, _ => "ServerboundOther"
  | _, mcd.Direction.CLIENTBOUND, _ => "ClientboundOther"

/-- A concrete `Env`: the demo cipher, a compressor that puts a marker byte in front of
its input, a counter as random number generator, a public-key encryption that adds one
to every byte, and a codec table in which the clientbound packet with id `n` has a body
of `n` bytes. -/
def demo_env : Env Nat Nat Nat where
  encryption := demo_encryption
  decryption := demo_decryption
  compress_start := fun _ => 0
  compress_update := fun k bytes => (k + 1, 120 :: bytes)
  decompress_start := 0
  rng_byte := fun r => (r + 1, (r * 37 + 11) % 256)
  load_key := fun key => !key.isEmpty
  pk_encrypt := fun _ r msg => some (r + 1, msg.map (fun b => (b + 1) % 256))
  protocol_cstrings := demo_cstrings
  decode := fun _ id bytes =>
    if id ≤ bytes.length then some { used := id, name := "Other", payload := Payload.other }
    else none
  serverbound_encryption_begin := fun r =>
    { packet_id := 1, name := "ServerboundEncryptionBegin",
      body := mcd.enc_varint r.sharedSecret.length ++ r.sharedSecret
        ++ mcd.enc_varint r.verifyToken.length ++ r.verifyToken }

/-- A stream buffer with eight bytes of put area. -/
def demo_buf : Streambuf := { gone := [], data := [], put := [0, 0, 0, 0, 0, 0, 0, 0] }

/-- The engine as its constructor leaves it, with small buffers, in the login state. -/
def demo_io : IOCore Nat Nat Nat where
  state := mcd.State.LOGIN
  kill := false
  compressed := false
  encrypted := false
  threshold := 0
  shared_secret := List.replicate 16 0
  encryptor := 0
  decryptor := 0
  compressor := 0
  decompressor := 0
  rng := 0
  in_buf := demo_buf
  out_buf := demo_buf
  pak_buf := demo_buf
  header_buf := demo_buf
  read_buf := { data := 0, size := 0 }
  emitted := []

/-- The demo engine with an `async_read_some` outstanding on a region of five bytes at
the start of `in_buf`, as the loop of `run` leaves it. -/
def demo_reading_io : IOCore Nat Nat Nat :=
  { demo_io with read_buf := { data := 0, size := 5 } }

/-- The demo engine once five bytes with the continuation bit set have arrived in the
region of the outstanding read. -/
def demo_malformed_read_io : IOCore Nat Nat Nat :=
  { demo_reading_io with
    in_buf := { gone := [], data := [], put := [128, 128, 128, 128, 128, 0, 0, 0] } }

/-- The engine `demo_malformed_read_io` once `header_handler` has committed the five
bytes. -/
def demo_malformed_committed_io : IOCore Nat Nat Nat :=
  { demo_reading_io with
    in_buf := { gone := [], data := [128, 128, 128, 128, 128], put := [0, 0, 0] } }

/-- The demo engine once two frames of two bytes each, `[1, 0]` and `[1, 0]`, have arrived
in the region of the outstanding read. -/
def demo_frames_read_io : IOCore Nat Nat Nat :=
  { demo_reading_io with
    in_buf := { gone := [], data := [], put := [1, 0, 1, 0, 0, 0, 0, 0] } }

/-- The engine `demo_frames_read_io` once `header_handler` has committed the four
bytes. -/
def demo_frames_committed_io : IOCore Nat Nat Nat :=
  { demo_reading_io with
    in_buf := { gone := [], data := [1, 0, 1, 0], put := [0, 0, 0, 0] } }

/-- The demo engine with encryption on. -/
def demo_encrypted_io : IOCore Nat Nat Nat :=
  { demo_io with encrypted := true }

/-- The demo engine with encryption on and an outbound buffer whose put area has just
the four bytes that the frame of the demo packet needs. -/
def demo_tight_io : IOCore Nat Nat Nat :=
  { demo_io with encrypted := true, out_buf := { gone := [], data := [], put := [0, 0, 0, 0] } }

/-- The demo engine with encryption on and an `async_read_some` outstanding. -/
def demo_encrypted_reading_io : IOCore Nat Nat Nat :=
  { demo_io with encrypted := true, read_buf := { data := 0, size := 5 } }

/-- The demo engine with encryption on once the byte 129 has arrived in the region of
the outstanding read. -/
def demo_encrypted_read_io : IOCore Nat Nat Nat :=
  { demo_encrypted_reading_io with
    in_buf := { gone := [], data := [], put := [129, 0, 0, 0, 0, 0, 0, 0] } }

/-- The demo engine with encryption on after a first completion of one byte, 129, that
decrypts to 128: `header_handler` has answered `Overrun`. -/
def demo_overrun_io : IOCore Nat Nat Nat :=
  { demo_encrypted_reading_io with
    decryptor := 129,
    in_buf := { gone := [], data := [128], put := [0, 0, 0, 0, 0, 0, 0] } }

/-- The demo engine with compression on and a threshold of three bytes. -/
def demo_compressed_io : IOCore Nat Nat Nat :=
  { demo_io with compressed := true, threshold := 3 }

/-- The demo engine with compression on and a threshold of two bytes. -/
def demo_deflating_io : IOCore Nat Nat Nat :=
  { demo_io with compressed := true, threshold := 2 }

/-- A packet with id 2 and a body of two bytes: three packet bytes in all. -/
def demo_packet : mcd.Packet := { packet_id := 2, name := "Demo", body := [7, 7] }

/-- A clientbound encryption request with a one-byte key and a two-byte token. -/
def demo_begin : mcd.ClientboundEncryptionBegin := { publicKey := [1], verifyToken := [5, 6] }

/-- The shared secret the demo generator draws from its initial state. -/
def demo_secret : List Nat :=
  [11, 48, 85, 122, 159, 196, 233, 14, 51, 88, 125, 162, 199, 236, 17, 54]

/-- The demo public-key encryption of `demo_secret`. -/
def demo_secret_encrypted : List Nat :=
  [12, 49, 86, 123, 160, 197, 234, 15, 52, 89, 126, 163, 200, 237, 18, 55]

end rkr

/-! # Theorems -/

namespace rkr

open mcd

/-! ## Varint facts -/

theorem enc_varint_go_length_le (n v : Nat) : (enc_varint_go n v).length ≤ n + 1 := by
  induction n generalizing v with
  | zero => simp [enc_varint_go]
  | succ n ih =>
    unfold enc_varint_go
    split
    · simp
    · have := ih (v / 128)
      simp only [List.length_cons]
      omega

theorem enc_varint_go_length_pos (n v : Nat) : 0 < (enc_varint_go n v).length := by
  cases n with
  | zero => simp [enc_varint_go]
  | succ n =>
    unfold enc_varint_go
    split <;> simp

theorem enc_varint_length_le (v : Nat) : (enc_varint v).length ≤ 5 :=
  enc_varint_go_length_le 4 _

theorem enc_varint_length_pos (v : Nat) : 0 < (enc_varint v).length :=
  enc_varint_go_length_pos 4 _

/-! ## Stream buffer facts -/

namespace Streambuf

theorem reserve_data (b : Streambuf) (n : Nat) : (b.reserve n).data = b.data := by
  unfold reserve
  split <;> rfl

theorem reserve_put_length (b : Streambuf) (n : Nat) : n ≤ (b.reserve n).put.length := by
  unfold reserve
  split
  · assumption
  · simp only [List.length_append, List.length_replicate]
    omega

theorem sputc_data (b : Streambuf) (c : Nat) : (b.sputc c).data = b.data ++ [c] := by
  unfold sputc
  split <;> simp [reserve_data]

theorem sputn_data (b : Streambuf) (cs : List Nat) : (b.sputn cs).data = b.data ++ cs := by
  unfold sputn
  induction cs generalizing b with
  | nil => simp
  | cons c cs ih => simp [List.foldl_cons, ih, sputc_data]

theorem prepare_of_fits (b : Streambuf) (n : Nat) (h : b.fits n) :
    b.prepare n = some (b.reserve n, { data := (b.reserve n).pptr, size := n }) := by
  unfold prepare
  simp [h]

theorem poke_append (a p bytes : List Nat) (k : Nat) (hk : k + bytes.length ≤ p.length) :
    poke (a ++ p) (a.length + k) bytes
      = some (a ++ (p.take k ++ bytes ++ p.drop (k + bytes.length))) := by
  unfold poke
  have hin : a.length + k + bytes.length ≤ (a ++ p).length := by
    rw [List.length_append]; omega
  rw [if_pos hin]
  have h1 : (a ++ p).take (a.length + k) = a ++ p.take k := by
    rw [List.take_append]
  have h3 : (a ++ p).drop (a.length + k + bytes.length) = p.drop (k + bytes.length) := by
    rw [Nat.add_assoc, List.drop_append]
  rw [h1, h3]
  simp [List.append_assoc]

theorem poke_none (m bytes : List Nat) (p : Nat) (h : m.length < p + bytes.length) :
    poke m p bytes = none := by
  unfold poke
  rw [if_neg (by omega)]

theorem store_put (b : Streambuf) (k : Nat) (bytes : List Nat)
    (hk : k + bytes.length ≤ b.put.length) :
    b.store (b.pptr + k) bytes
      = some { b with put := b.put.take k ++ bytes ++ b.put.drop (k + bytes.length) } := by
  unfold store pptr mem
  have h := poke_append (b.gone ++ b.data) b.put bytes k hk
  rw [List.length_append] at h
  rw [h]
  cases b with
  | mk g d p =>
    simp only [Option.some.injEq, Streambuf.mk.injEq]
    refine ⟨?_, ?_, ?_⟩
    · simp [List.append_assoc]
    · simp [List.append_assoc]
    · rw [← List.length_append, List.drop_left]

theorem store_none (b : Streambuf) (p : Nat) (bytes : List Nat)
    (h : b.mem.length < p + bytes.length) : b.store p bytes = none := by
  unfold store
  rw [poke_none _ _ _ h]

theorem mem_length (b : Streambuf) :
    b.mem.length = b.pptr + b.put.length := by
  simp only [mem, pptr, List.length_append]

theorem load_put (b : Streambuf) (k n : Nat) (h : k + n ≤ b.put.length) :
    b.load (b.pptr + k) n = some ((b.put.drop k).take n) := by
  unfold load
  rw [if_pos (by rw [mem_length]; omega)]
  unfold pptr mem
  have hd : (b.gone ++ b.data ++ b.put).drop (b.gone.length + b.data.length + k) = b.put.drop k := by
    rw [← List.length_append, List.drop_append]
  rw [hd]

theorem load_put_none (b : Streambuf) (k n : Nat) (h : b.put.length < k + n) :
    b.load (b.pptr + k) n = none := by
  unfold load
  rw [if_neg (by rw [mem_length]; omega)]

end Streambuf

theorem Cipher.process_append {σ : Type} (c : Cipher σ) (s : σ) (xs ys : List Nat) :
    c.process s (xs ++ ys)
      = ((c.process (c.process s xs).1 ys).1,
         (c.process s xs).2 ++ (c.process (c.process s xs).1 ys).2) := by
  induction xs generalizing s with
  | nil => simp [Cipher.process]
  | cons x xs ih => simp [Cipher.process, ih]

theorem Cipher.process_length {σ : Type} (c : Cipher σ) (s : σ) (xs : List Nat) :
    (c.process s xs).2.length = xs.length := by
  induction xs generalizing s with
  | nil => simp [Cipher.process]
  | cons x xs ih => simp [Cipher.process, ih]

/-! ## The outbound path: laying out a frame -/

theorem copy_frame_prepared (r : Streambuf) (hd pl : List Nat) (n : Nat)
    (hn : hd.length ≤ n) (h : hd.length + pl.length ≤ r.put.length) :
    copy_frame r { data := r.pptr, size := n } hd.length hd pl
      = some ({ r with put := hd ++ pl ++ r.put.drop (hd.length + pl.length) },
              { data := r.pptr + hd.length, size := n - hd.length }) := by
  unfold copy_frame
  have h0 := Streambuf.store_put r 0 hd (by omega)
  simp only [Nat.add_zero, List.take_zero, List.nil_append, Nat.zero_add] at h0
  simp only [h0, mutable_buffer.advance, Nat.min_eq_left hn]
  have h1 := Streambuf.store_put { r with put := hd ++ r.put.drop hd.length } hd.length pl
    (by simp only [List.length_append, List.length_drop]; omega)
  have hp : ({ r with put := hd ++ r.put.drop hd.length } : Streambuf).pptr = r.pptr := rfl
  rw [hp] at h1
  rw [h1]
  simp only [List.take_left]
  have hdrop : (hd ++ r.put.drop hd.length).drop (hd.length + pl.length)
      = r.put.drop (hd.length + pl.length) := by
    rw [List.drop_append, List.drop_drop, Nat.add_comm]
  rw [hdrop]

section engine
variable {σ κ ρ : Type}

/-- What `encode_packet_assemble` leaves behind when it is entered with empty scratch
buffers and the frame fits the outbound buffer. -/
theorem encode_packet_assemble_spec (env : Env σ κ ρ) (packet : Packet) (io : IOCore σ κ ρ)
    (hp : io.pak_buf.data = []) (hh : io.header_buf.data = [])
    (hfit : io.out_buf.fits (wire_frame env packet io).length) :
    ∃ a, encode_packet_assemble env packet io = Outcome.ok a
      ∧ a.io.pak_buf.data = packet_bytes packet
      ∧ a.packet_size = (packet_bytes packet).length
      ∧ a.io.header_buf.data = frame_header env packet io
      ∧ a.header_size = (frame_header env packet io).length
      ∧ a.write_size = (wire_frame env packet io).length
      ∧ a.write_buf.data
          = (io.out_buf.reserve (wire_frame env packet io).length).pptr
            + (frame_header env packet io).length
      ∧ a.io.out_buf
          = { io.out_buf.reserve (wire_frame env packet io).length with
              put := wire_frame env packet io
                ++ (io.out_buf.reserve (wire_frame env packet io).length).put.drop
                    (wire_frame env packet io).length }
      ∧ a.io.out_buf.data = io.out_buf.data
      ∧ a.io.encrypted = io.encrypted ∧ a.io.encryptor = io.encryptor
      ∧ a.io.decryptor = io.decryptor
      ∧ a.io.compressed = io.compressed ∧ a.io.threshold = io.threshold
      ∧ a.io.state = io.state ∧ a.io.emitted = io.emitted
      ∧ a.io.shared_secret = io.shared_secret ∧ a.io.in_buf = io.in_buf := by
  have hB : ((io.pak_buf.sputn (enc_varint packet.packet_id)).sputn packet.body).data
      = packet_bytes packet := by
    simp [Streambuf.sputn_data, hp, packet_bytes]
  have hroom := Streambuf.reserve_put_length io.out_buf (wire_frame env packet io).length
  unfold encode_packet_assemble
  simp only [Streambuf.size, hB]
  by_cases hc : io.compressed = true ∧ (packet_bytes packet).length > io.threshold
  · have hH : ((io.header_buf.sputn (enc_varint
          ((env.compress_update io.compressor (packet_bytes packet)).2.length
            + size_varint (packet_bytes packet).length))).sputn
          (enc_varint (packet_bytes packet).length)).data = frame_header env packet io := by
      simp [Streambuf.sputn_data, hh, frame_header, hc]
    have hPl : frame_payload env packet io
        = (env.compress_update io.compressor (packet_bytes packet)).2 := by
      simp [frame_payload, hc]
    have hws : (frame_header env packet io).length
        + (env.compress_update io.compressor (packet_bytes packet)).2.length
        = (wire_frame env packet io).length := by
      simp [wire_frame, hPl]
    simp only [hc, and_self, if_true, List.take_length, hH, hws]
    rw [Streambuf.prepare_of_fits _ _ hfit]
    have h2 := copy_frame_prepared (io.out_buf.reserve (wire_frame env packet io).length)
      (frame_header env packet io) (env.compress_update io.compressor (packet_bytes packet)).2
      (wire_frame env packet io).length (by rw [← hws]; omega) (by rw [hws]; exact hroom)
    simp only [h2]
    refine ⟨_, rfl, ?_⟩
    rw [hws]
    simp [hB, hH, wire_frame, hPl, Streambuf.reserve_data]
  · have hH : (if io.compressed = true then
          (io.header_buf.sputn (enc_varint ((packet_bytes packet).length + 1))).sputc 0
        else io.header_buf.sputn (enc_varint (packet_bytes packet).length)).data
        = frame_header env packet io := by
      by_cases hcc : io.compressed = true
      · have hlt : ¬ io.threshold < (packet_bytes packet).length := fun h => hc ⟨hcc, h⟩
        simp [Streambuf.sputn_data, Streambuf.sputc_data, hh, frame_header, hcc, hlt]
      · simp [Streambuf.sputn_data, hh, frame_header, hcc]
    have hPl : frame_payload env packet io = packet_bytes packet := by
      simp [frame_payload, hc]
    have hws : (packet_bytes packet).length + (frame_header env packet io).length
        = (wire_frame env packet io).length := by
      simp [wire_frame, hPl]; omega
    simp only [hc, if_false, List.take_length, hH, hws]
    rw [Streambuf.prepare_of_fits _ _ hfit]
    have h2 := copy_frame_prepared (io.out_buf.reserve (wire_frame env packet io).length)
      (frame_header env packet io) (packet_bytes packet)
      (wire_frame env packet io).length (by rw [← hws]; omega)
      (by rw [Nat.add_comm, hws]; exact hroom)
    simp only [h2]
    refine ⟨_, rfl, ?_⟩
    rw [Nat.add_comm (frame_header env packet io).length, hws]
    simp [hB, hH, wire_frame, hPl, Streambuf.reserve_data]

end engine

/-! ## The outbound path: encrypting and committing -/

section engine
variable {σ κ ρ : Type}

theorem Streambuf.consume_all_data (b : Streambuf) (n : Nat) (h : b.data.length ≤ n) :
    (b.consume n).data = [] := by
  simp [Streambuf.consume, List.drop_eq_nil_iff, h]

theorem take_two (hd pl rest : List Nat) :
    (hd ++ pl ++ rest).take (hd.length + pl.length) = hd ++ pl := by
  rw [← List.length_append, List.take_left]

/-- The part of the put area that the encryptor works on in `encode_packet`: the
payload, followed by as many bytes as the header is long, when that many are there. -/
theorem encrypted_region (r : Streambuf) (hd pl tail : List Nat)
    (hput : r.put = hd ++ pl ++ tail) (hroom : hd.length ≤ tail.length) :
    r.load (r.pptr + hd.length) (hd.length + pl.length) = some (pl ++ tail.take hd.length) := by
  rw [Streambuf.load_put _ _ _ (by rw [hput]; simp only [List.length_append]; omega), hput]
  simp only [List.append_assoc, List.drop_left]
  rw [List.take_append_eq_append_take]
  have h1 : pl.take (hd.length + pl.length) = pl := List.take_of_length_le (by omega)
  have h2 : hd.length + pl.length - pl.length = hd.length := by omega
  rw [h1, h2]

/-- The encryptor leaves the vector when fewer bytes than the header is long follow the
frame in the put area. -/
theorem encrypted_region_outside (r : Streambuf) (hd pl tail : List Nat)
    (hput : r.put = hd ++ pl ++ tail) (hroom : tail.length < hd.length) :
    r.load (r.pptr + hd.length) (hd.length + pl.length) = none := by
  apply Streambuf.load_put_none
  rw [hput]
  simp only [List.length_append]
  omega

/-- Committing a frame after the encryptor has worked from the end of the header on: the
header is committed as it was assembled, followed by the encrypted payload. -/
theorem commit_processed (r : Streambuf) (hd pl tail e x : List Nat)
    (hput : r.put = hd ++ pl ++ tail) (he : e.length = pl.length)
    (hx : x.length ≤ tail.length) :
    ∃ r1, r.store (r.pptr + hd.length) (e ++ x) = some r1
      ∧ (r1.commit (hd.length + pl.length)).data = r.data ++ hd ++ e := by
  have hin : hd.length + (e ++ x).length ≤ r.put.length := by
    rw [hput]; simp only [List.length_append]; omega
  refine ⟨_, Streambuf.store_put r hd.length (e ++ x) hin, ?_⟩
  simp only [Streambuf.commit]
  have h1 : r.put.take hd.length = hd := by
    rw [hput, List.append_assoc, List.take_left]
  rw [h1, ← he]
  have h2 : hd ++ (e ++ x) ++ r.put.drop (hd.length + (e ++ x).length)
      = hd ++ e ++ (x ++ r.put.drop (hd.length + (e ++ x).length)) := by
    simp [List.append_assoc]
  rw [h2, take_two, List.append_assoc]

/-- The state in which `encode_packet` emits its event, when it is entered with empty
scratch buffers, the frame fits the outbound buffer and, when `encrypted`, the encryptor
stays inside the vector: the scratch buffers are empty again and `out_buf` has gained
the header, as assembled, followed by the payload, which went through the encryptor
when `encrypted`. -/
theorem encode_packet_framed_spec (env : Env σ κ ρ) (packet : Packet) (io : IOCore σ κ ρ)
    (hp : io.pak_buf.data = []) (hh : io.header_buf.data = [])
    (hfit : io.out_buf.fits (wire_frame env packet io).length)
    (hinside : io.encrypted = true → encryptor_stays_inside env packet io) :
    ∃ io1, encode_packet_framed env packet io = Outcome.ok io1
      ∧ io1.pak_buf.data = [] ∧ io1.header_buf.data = []
      ∧ io1.out_buf.data = io.out_buf.data ++ frame_header env packet io
          ++ (if io.encrypted then
                (env.encryption.process io.encryptor (frame_payload env packet io)).2
              else frame_payload env packet io)
      ∧ io1.encrypted = io.encrypted
      ∧ (io.encrypted = false → io1.encryptor = io.encryptor)
      ∧ io1.decryptor = io.decryptor
      ∧ io1.compressed = io.compressed ∧ io1.threshold = io.threshold
      ∧ io1.state = io.state ∧ io1.emitted = io.emitted
      ∧ io1.shared_secret = io.shared_secret ∧ io1.in_buf = io.in_buf := by
  obtain ⟨a, ha, hpak, hps, hhdr, hhs, hws, hwb, hout, hdata, henc, hencr, hdec, hcomp, hthr,
    hst, hem, hss, hin⟩ := encode_packet_assemble_spec env packet io hp hh hfit
  have hwl : (wire_frame env packet io).length
      = (frame_header env packet io).length + (frame_payload env packet io).length := by
    simp [wire_frame]
  have hput : a.io.out_buf.put = frame_header env packet io ++ frame_payload env packet io
      ++ (io.out_buf.reserve (wire_frame env packet io).length).put.drop
          (wire_frame env packet io).length := by
    rw [hout]; rfl
  have hptr : a.io.out_buf.pptr = (io.out_buf.reserve (wire_frame env packet io).length).pptr := by
    rw [hout]; rfl
  by_cases he : io.encrypted = true
  · have he' : a.io.encrypted = true := by rw [henc, he]
    have hroom : (frame_header env packet io).length
        ≤ ((io.out_buf.reserve (wire_frame env packet io).length).put.drop
            (wire_frame env packet io).length).length := by
      have := hinside he
      unfold encryptor_stays_inside at this
      rw [List.length_drop]; omega
    have hwb1 : a.write_buf.data = a.io.out_buf.pptr + (frame_header env packet io).length := by
      rw [hwb, hptr]
    have hload : a.io.out_buf.load a.write_buf.data a.write_size
        = some (frame_payload env packet io
            ++ ((io.out_buf.reserve (wire_frame env packet io).length).put.drop
                (wire_frame env packet io).length).take (frame_header env packet io).length) := by
      have hsz : a.write_size
          = (frame_header env packet io).length + (frame_payload env packet io).length :=
        hws.trans hwl
      rw [hwb1, hsz]
      exact encrypted_region a.io.out_buf _ _ _ hput hroom
    obtain ⟨r1, hstore, hcommit⟩ := commit_processed a.io.out_buf
      (frame_header env packet io) (frame_payload env packet io) _
      (env.encryption.process io.encryptor (frame_payload env packet io)).2
      (env.encryption.process
        (env.encryption.process io.encryptor (frame_payload env packet io)).1
        (((io.out_buf.reserve (wire_frame env packet io).length).put.drop
          (wire_frame env packet io).length).take (frame_header env packet io).length)).2
      hput (Cipher.process_length _ _ _)
      (by rw [Cipher.process_length, List.length_take]; omega)
    have hsz : a.write_size
        = (frame_header env packet io).length + (frame_payload env packet io).length :=
      hws.trans hwl
    rw [← hwb1] at hstore
    rw [← hsz] at hcommit
    have hcipher : encrypt_write_buf env a
        = Outcome.ok
            { a.io with
              encryptor := (env.encryption.process a.io.encryptor
                (frame_payload env packet io
                  ++ ((io.out_buf.reserve (wire_frame env packet io).length).put.drop
                      (wire_frame env packet io).length).take
                        (frame_header env packet io).length)).1,
              out_buf := r1 } := by
      unfold encrypt_write_buf
      simp only [he', if_true, hload, hencr, Cipher.process_append, hstore]
    have hf : encode_packet_framed env packet io
        = Outcome.ok (commit_frame a
            { a.io with
              encryptor := (env.encryption.process a.io.encryptor
                (frame_payload env packet io
                  ++ ((io.out_buf.reserve (wire_frame env packet io).length).put.drop
                      (wire_frame env packet io).length).take
                        (frame_header env packet io).length)).1,
              out_buf := r1 }) := by
      simp only [encode_packet_framed, ha, Outcome.bind, encode_packet_commit, hcipher]
    refine ⟨_, hf, ?_⟩
    refine ⟨?_, ?_, ?_, ?_, ?_, hdec, hcomp, hthr, hst, hem, hss, hin⟩
    · exact Streambuf.consume_all_data _ _ (by rw [hpak, hps])
    · exact Streambuf.consume_all_data _ _ (by rw [hhdr, hhs])
    · simp only [he, if_true]
      show (r1.commit a.write_size).data = _
      rw [hcommit, hdata]
    · exact he'.trans he.symm
    · intro h; rw [he] at h; cases h
  · have he0 : io.encrypted = false := by simpa using he
    have he' : a.io.encrypted = false := by rw [henc, he0]
    have hcipher : encrypt_write_buf env a = Outcome.ok a.io := by
      unfold encrypt_write_buf
      simp [he']
    have hf : encode_packet_framed env packet io = Outcome.ok (commit_frame a a.io) := by
      simp only [encode_packet_framed, ha, Outcome.bind, encode_packet_commit, hcipher]
    refine ⟨_, hf, ?_⟩
    refine ⟨?_, ?_, ?_, henc, fun _ => hencr, hdec, hcomp, hthr, hst, hem, hss, hin⟩
    · exact Streambuf.consume_all_data _ _ (by rw [hpak, hps])
    · exact Streambuf.consume_all_data _ _ (by rw [hhdr, hhs])
    · simp only [he0, Bool.false_eq_true, if_false]
      show (a.io.out_buf.commit a.write_size).data = _
      simp only [Streambuf.commit]
      rw [hput, hws, hwl, hdata, take_two, List.append_assoc]

/-- With `encrypted` set and fewer bytes after the frame than the header is long, the
encryptor of `encode_packet` leaves the vector of `out_buf`: the behaviour is
undefined. -/
theorem encode_packet_framed_outside (env : Env σ κ ρ) (packet : Packet) (io : IOCore σ κ ρ)
    (he : io.encrypted = true)
    (hp : io.pak_buf.data = []) (hh : io.header_buf.data = [])
    (hfit : io.out_buf.fits (wire_frame env packet io).length)
    (houtside : ¬ encryptor_stays_inside env packet io) :
    encode_packet_framed env packet io = Outcome.undefined io.emitted
      ∧ encode_packet env packet io = Outcome.undefined io.emitted := by
  obtain ⟨a, ha, -, -, -, -, hws, hwb, hout, -, henc, -, -, -, -, -, hem, -⟩ :=
    encode_packet_assemble_spec env packet io hp hh hfit
  have hwl : (wire_frame env packet io).length
      = (frame_header env packet io).length + (frame_payload env packet io).length := by
    simp [wire_frame]
  have hput : a.io.out_buf.put = frame_header env packet io ++ frame_payload env packet io
      ++ (io.out_buf.reserve (wire_frame env packet io).length).put.drop
          (wire_frame env packet io).length := by
    rw [hout]; rfl
  have hptr : a.io.out_buf.pptr = (io.out_buf.reserve (wire_frame env packet io).length).pptr := by
    rw [hout]; rfl
  have hres := Streambuf.reserve_put_length io.out_buf (wire_frame env packet io).length
  have hroom : ((io.out_buf.reserve (wire_frame env packet io).length).put.drop
      (wire_frame env packet io).length).length < (frame_header env packet io).length := by
    unfold encryptor_stays_inside at houtside
    rw [List.length_drop]; omega
  have hload : a.io.out_buf.load a.write_buf.data a.write_size = none := by
    have hsz : a.write_size
        = (frame_header env packet io).length + (frame_payload env packet io).length :=
      hws.trans hwl
    rw [hwb, ← hptr, hsz]
    exact encrypted_region_outside a.io.out_buf _ _ _ hput hroom
  have hcipher : encrypt_write_buf env a = Outcome.undefined io.emitted := by
    unfold encrypt_write_buf
    simp only [henc, he, if_true, hload, hem]
  have hf : encode_packet_framed env packet io = Outcome.undefined io.emitted := by
    simp only [encode_packet_framed, ha, Outcome.bind, encode_packet_commit, hcipher]
  exact ⟨hf, by simp only [encode_packet, hf, Outcome.bind]⟩

end engine

/-! ## The outbound path: the statements -/

section engine
variable {σ κ ρ : Type}

theorem randomize_length (env : Env σ κ ρ) (r : ρ) (n : Nat) :
    (randomize env r n).2.length = n := by
  induction n generalizing r with
  | zero => simp [randomize]
  | succ n ih => simp [randomize, ih]

theorem fits_of_le (b : Streambuf) (n : Nat) (h : b.data.length + n ≤ max_size) : b.fits n := by
  right
  omega

theorem wire_frame_length_le (env : Env σ κ ρ) (packet : Packet) (io : IOCore σ κ ρ)
    (h : ¬ (io.compressed = true ∧ (packet_bytes packet).length > io.threshold)) :
    (wire_frame env packet io).length ≤ (packet_bytes packet).length + 6 := by
  unfold wire_frame frame_header frame_payload
  simp only [h, if_false]
  split
  · have := enc_varint_length_le ((packet_bytes packet).length + 1)
    simp only [List.length_append, List.length_singleton]
    omega
  · have := enc_varint_length_le (packet_bytes packet).length
    simp only [List.length_append]
    omega

theorem inside_of_not_encrypted (env : Env σ κ ρ) (packet : Packet) (io : IOCore σ κ ρ)
    (he : io.encrypted = false) : io.encrypted = true → encryptor_stays_inside env packet io := by
  intro h
  rw [he] at h
  cases h

/-- The final emit of `encode_packet` leaves the three buffers of the outbound path as
they are. -/
theorem emit_serverbound_buffers (env : Env σ κ ρ) (packet : Packet) (io : IOCore σ κ ρ) :
    (emit_serverbound env packet io).out_buf = io.out_buf
      ∧ (emit_serverbound env packet io).pak_buf = io.pak_buf
      ∧ (emit_serverbound env packet io).header_buf = io.header_buf := by
  unfold emit_serverbound
  split <;> simp [enable_encryption, emit]

theorem encode_packet_of_framed (env : Env σ κ ρ) (packet : Packet) (io io1 : IOCore σ κ ρ)
    (h : encode_packet_framed env packet io = Outcome.ok io1) :
    encode_packet env packet io = Outcome.ok (emit_serverbound env packet io1) := by
  simp [encode_packet, h, Outcome.bind]

/-- C4. With compression and encryption off and empty scratch buffers, `encode_packet`
returns and leaves `out_buf` holding what it held before, followed by `varint(L)` and by
`B`, where `B` is the varint of the id followed by the body and `L` the length of `B`.
The only side condition is that the outbound buffer stays below `max_size`. -/
theorem encode_packet_plain_appends (env : Env σ κ ρ) (packet : Packet) (io : IOCore σ κ ρ)
    (hc : io.compressed = false) (he : io.encrypted = false)
    (hp : io.pak_buf.data = []) (hh : io.header_buf.data = [])
    (hsize : io.out_buf.data.length + (enc_varint packet.packet_id ++ packet.body).length + 6
      ≤ max_size) :
    ∃ io1, encode_packet env packet io = Outcome.ok io1
      ∧ io1.out_buf.data
          = io.out_buf.data
            ++ enc_varint (enc_varint packet.packet_id ++ packet.body).length
            ++ (enc_varint packet.packet_id ++ packet.body) := by
  have hnc : ¬ (io.compressed = true ∧ (packet_bytes packet).length > io.threshold) := by
    simp [hc]
  have hfit : io.out_buf.fits (wire_frame env packet io).length := by
    apply fits_of_le
    have := wire_frame_length_le env packet io hnc
    simp only [packet_bytes] at this
    omega
  obtain ⟨io1, h1, -, -, hout, -⟩ := encode_packet_framed_spec env packet io hp hh hfit
    (inside_of_not_encrypted env packet io he)
  refine ⟨_, encode_packet_of_framed env packet io io1 h1, ?_⟩
  rw [(emit_serverbound_buffers env packet io1).1, hout]
  simp [he, frame_header, frame_payload, hc, packet_bytes]

/-- C1 (what the code does). With encryption on and empty scratch buffers, the region the
encryptor processes starts `header_size` bytes after the start of the prepared region and
is `write_size` bytes long.  When that region is inside the vector of `out_buf`, the
bytes that `encode_packet` commits are the header exactly as assembled, in the clear,
followed by the payload sent through the encryptor; when it is not, the encryptor reads
and writes past the vector and the behaviour is undefined. -/
theorem encode_packet_encrypted_header_in_clear (env : Env σ κ ρ) (packet : Packet)
    (io : IOCore σ κ ρ) (he : io.encrypted = true)
    (hp : io.pak_buf.data = []) (hh : io.header_buf.data = [])
    (hfit : io.out_buf.fits (wire_frame env packet io).length) :
    ∃ a, encode_packet_assemble env packet io = Outcome.ok a
      ∧ a.write_buf.data
          = (io.out_buf.reserve (wire_frame env packet io).length).pptr
            + (frame_header env packet io).length
      ∧ a.write_size = (wire_frame env packet io).length
      ∧ (encryptor_stays_inside env packet io →
          ∃ io1 io2, encode_packet_framed env packet io = Outcome.ok io1
            ∧ io1.out_buf.data
                = io.out_buf.data ++ frame_header env packet io
                  ++ (env.encryption.process io.encryptor (frame_payload env packet io)).2
            ∧ encode_packet env packet io = Outcome.ok io2
            ∧ io2.out_buf.data = io1.out_buf.data)
      ∧ (¬ encryptor_stays_inside env packet io →
          encode_packet_framed env packet io = Outcome.undefined io.emitted
            ∧ encode_packet env packet io = Outcome.undefined io.emitted) := by
  obtain ⟨a, ha, -, -, -, -, hws, hwb, -⟩ :=
    encode_packet_assemble_spec env packet io hp hh hfit
  refine ⟨a, ha, hwb, hws, ?_, ?_⟩
  · intro hinside
    obtain ⟨io1, h1, -, -, hout, -⟩ :=
      encode_packet_framed_spec env packet io hp hh hfit (fun _ => hinside)
    refine ⟨io1, _, h1, by rw [hout]; simp [he],
      encode_packet_of_framed env packet io io1 h1, ?_⟩
    rw [(emit_serverbound_buffers env packet io1).1]
  · intro houtside
    exact encode_packet_framed_outside env packet io he hp hh hfit houtside

/-- C2 (what the code does). `enable_compression` stores the threshold of the payload and
leaves the flag `compressed` as it found it. -/
theorem enable_compression_leaves_flag (env : Env σ κ ρ) (data : ClientboundCompress)
    (io : IOCore σ κ ρ) :
    (enable_compression env data io).threshold = data.threshold
      ∧ (enable_compression env data io).compressed = io.compressed :=
  ⟨rfl, rfl⟩

/-- C3 (what the code does). With compression on, encryption off and empty scratch
buffers, a packet whose bytes are exactly as long as the threshold is not deflated: the
frame is `varint(L + 1)`, the byte 0 and the packet bytes. -/
theorem encode_packet_at_threshold_not_deflated (env : Env σ κ ρ) (packet : Packet)
    (io : IOCore σ κ ρ) (hc : io.compressed = true) (he : io.encrypted = false)
    (hT : (enc_varint packet.packet_id ++ packet.body).length = io.threshold)
    (hp : io.pak_buf.data = []) (hh : io.header_buf.data = [])
    (hsize : io.out_buf.data.length + (enc_varint packet.packet_id ++ packet.body).length + 6
      ≤ max_size) :
    ∃ io1, encode_packet env packet io = Outcome.ok io1
      ∧ io1.out_buf.data
          = io.out_buf.data
            ++ enc_varint ((enc_varint packet.packet_id ++ packet.body).length + 1) ++ [0]
            ++ (enc_varint packet.packet_id ++ packet.body) := by
  have hnc : ¬ (io.compressed = true ∧ (packet_bytes packet).length > io.threshold) := by
    simp only [packet_bytes, hT]; omega
  have hfit : io.out_buf.fits (wire_frame env packet io).length := by
    apply fits_of_le
    have := wire_frame_length_le env packet io hnc
    simp only [packet_bytes] at this
    omega
  obtain ⟨io1, h1, -, -, hout, -⟩ := encode_packet_framed_spec env packet io hp hh hfit
    (inside_of_not_encrypted env packet io he)
  refine ⟨_, encode_packet_of_framed env packet io io1 h1, ?_⟩
  rw [(emit_serverbound_buffers env packet io1).1, hout]
  have hlt : ¬ io.threshold < (enc_varint packet.packet_id).length + packet.body.length := by
    rw [List.length_append] at hT; omega
  simp [he, frame_header, frame_payload, hc, packet_bytes, hlt]

/-- C8. From a state with encryption off and empty scratch buffers, when the key loads,
both public-key encryptions succeed and the serverbound event of the response is the one
named `"ServerboundEncryptionBegin"` (so the bus runs `enable_encryption`): the response
frame is appended to `out_buf` as assembled, with `encrypted` still false and the
encryptor untouched; the handler then returns the state obtained from that one by
recording the event and running `enable_encryption`, in which `out_buf` is unchanged,
`encrypted` is true, and encryptor and decryptor are started with key and IV equal to the
16-byte secret whose encryption `c1` is the response's `sharedSecret`. -/
theorem encryption_begin_response_in_clear (env : Env σ κ ρ)
    (packet : ClientboundEncryptionBegin) (io : IOCore σ κ ρ)
    (rng1 rng2 : ρ) (c1 c2 : List Nat)
    (he : io.encrypted = false)
    (hp : io.pak_buf.data = []) (hh : io.header_buf.data = [])
    (hkey : env.load_key packet.publicKey = true)
    (h1 : env.pk_encrypt packet.publicKey (randomize env io.rng shared_secret_size).1
      (randomize env io.rng shared_secret_size).2 = some (rng1, c1))
    (h2 : env.pk_encrypt packet.publicKey rng1 packet.verifyToken = some (rng2, c2))
    (hname : env.protocol_cstrings io.state Direction.SERVERBOUND
      (env.serverbound_encryption_begin { sharedSecret := c1, verifyToken := c2 }).packet_id
      = "ServerboundEncryptionBegin")
    (hfit : io.out_buf.fits (wire_frame env
      (env.serverbound_encryption_begin { sharedSecret := c1, verifyToken := c2 }) io).length) :
    ∃ io1 io2,
      encode_packet_framed env
          (env.serverbound_encryption_begin { sharedSecret := c1, verifyToken := c2 })
          { io with rng := rng2, shared_secret := (randomize env io.rng shared_secret_size).2 }
        = Outcome.ok io1
      ∧ io1.out_buf.data = io.out_buf.data ++ wire_frame env
          (env.serverbound_encryption_begin { sharedSecret := c1, verifyToken := c2 }) io
      ∧ io1.encrypted = false ∧ io1.encryptor = io.encryptor
      ∧ encryption_begin_handler env packet io = Outcome.ok io2
      ∧ io2 = enable_encryption env (emit io1 (Event.packet io.state Direction.SERVERBOUND
          (env.serverbound_encryption_begin { sharedSecret := c1, verifyToken := c2 }).packet_id
          ("mcd::"
            ++ (env.serverbound_encryption_begin { sharedSecret := c1, verifyToken := c2 }).name
            ++ " *")
          (env.serverbound_encryption_begin { sharedSecret := c1, verifyToken := c2 }).body))
      ∧ io2.out_buf = io1.out_buf ∧ io2.encrypted = true
      ∧ io2.encryptor = env.encryption.start (randomize env io.rng shared_secret_size).2
          (randomize env io.rng shared_secret_size).2
      ∧ io2.decryptor = env.decryption.start (randomize env io.rng shared_secret_size).2
          (randomize env io.rng shared_secret_size).2
      ∧ (randomize env io.rng shared_secret_size).2.length = 16 := by
  obtain ⟨io1, hf, -, -, hout, henc, hencr, -, -, -, hst, -, hss, -⟩ :=
    encode_packet_framed_spec env
      (env.serverbound_encryption_begin { sharedSecret := c1, verifyToken := c2 })
      { io with rng := rng2, shared_secret := (randomize env io.rng shared_secret_size).2 }
      hp hh hfit (inside_of_not_encrypted env _ _ he)
  simp only at hst hss henc
  have hhandler : encryption_begin_handler env packet io
      = encode_packet env
          (env.serverbound_encryption_begin { sharedSecret := c1, verifyToken := c2 })
          { io with rng := rng2, shared_secret := (randomize env io.rng shared_secret_size).2 } := by
    simp [encryption_begin_handler, hkey, h1, h2]
  have hemit : emit_serverbound env
      (env.serverbound_encryption_begin { sharedSecret := c1, verifyToken := c2 }) io1
      = enable_encryption env (emit io1 (Event.packet io.state Direction.SERVERBOUND
          (env.serverbound_encryption_begin { sharedSecret := c1, verifyToken := c2 }).packet_id
          ("mcd::"
            ++ (env.serverbound_encryption_begin { sharedSecret := c1, verifyToken := c2 }).name
            ++ " *")
          (env.serverbound_encryption_begin { sharedSecret := c1, verifyToken := c2 }).body)) := by
    simp [emit_serverbound, hst, hname]
  refine ⟨io1, _, hf, ?_, henc.trans he, hencr he, ?_, hemit, ?_, ?_, ?_, ?_, ?_⟩
  · rw [hout]
    simp only [he, Bool.false_eq_true, if_false, List.append_assoc]
    rfl
  · rw [hhandler, encode_packet_of_framed _ _ _ _ hf]
  · rw [hemit]; rfl
  · rw [hemit]; rfl
  · rw [hemit]; simp [enable_encryption, emit, hss]
  · rw [hemit]; simp [enable_encryption, emit, hss]
  · exact randomize_length env io.rng 16

end engine

/-! ## The inbound path: length prefixes -/

theorem verify_varint_go_enc (n : Nat) : ∀ (f seen v : Nat) (rest : List Nat), n + 1 ≤ f →
    verify_varint_go f seen (enc_varint_go n v ++ rest)
      = Varnum.valid (seen + (enc_varint_go n v).length) := by
  induction n with
  | zero =>
    intro f seen v rest hf
    obtain ⟨f, rfl⟩ : ∃ g, f = g + 1 := ⟨f - 1, by omega⟩
    have : v % 128 < 128 := Nat.mod_lt _ (by decide)
    simp [enc_varint_go, verify_varint_go, this]
  | succ n ih =>
    intro f seen v rest hf
    obtain ⟨f, rfl⟩ : ∃ g, f = g + 1 := ⟨f - 1, by omega⟩
    unfold enc_varint_go
    split
    · rename_i hv
      simp [verify_varint_go, hv]
    · have hb : ¬ v % 128 + 128 < 128 := by omega
      simp only [List.cons_append, verify_varint_go, hb, if_false, List.length_cons]
      refine (ih f (seen + 1) (v / 128) rest (by omega)).trans ?_
      congr 1
      omega

theorem dec_varint_go_enc (n : Nat) : ∀ (f shift acc used v : Nat) (rest : List Nat),
    n + 1 ≤ f → v < 128 ^ (n + 1) →
    dec_varint_go f shift acc used (enc_varint_go n v ++ rest)
      = some (acc + v * shift, used + (enc_varint_go n v).length) := by
  induction n with
  | zero =>
    intro f shift acc used v rest hf hv
    obtain ⟨f, rfl⟩ : ∃ g, f = g + 1 := ⟨f - 1, by omega⟩
    have hv' : v < 128 := by simpa using hv
    simp [enc_varint_go, dec_varint_go, Nat.mod_eq_of_lt hv', hv']
  | succ n ih =>
    intro f shift acc used v rest hf hv
    obtain ⟨f, rfl⟩ : ∃ g, f = g + 1 := ⟨f - 1, by omega⟩
    unfold enc_varint_go
    split
    · rename_i hv'
      simp [dec_varint_go, hv']
    · have hb : ¬ v % 128 + 128 < 128 := by omega
      have hdiv : v / 128 < 128 ^ (n + 1) := by
        rw [Nat.div_lt_iff_lt_mul (by decide)]
        rw [Nat.pow_succ] at hv
        exact hv
      simp only [List.cons_append, dec_varint_go, hb, if_false, List.length_cons]
      refine (ih f (shift * 128) (acc + (v % 128 + 128) % 128 * shift) (used + 1) (v / 128) rest
        (by omega) hdiv).trans ?_
      have hmod : (v % 128 + 128) % 128 = v % 128 := by omega
      rw [hmod]
      have hsplit : v % 128 * shift + v / 128 * (shift * 128) = v * shift := by
        have := Nat.mod_add_div v 128
        calc v % 128 * shift + v / 128 * (shift * 128)
            = (v % 128 + 128 * (v / 128)) * shift := by ring
          _ = v * shift := by rw [this]
      congr 1
      · congr 1
        · omega
        · omega

theorem verify_varint_enc (v : Nat) (rest : List Nat) :
    verify_varint (enc_varint v ++ rest) = Varnum.valid (enc_varint v).length := by
  unfold verify_varint enc_varint
  rw [verify_varint_go_enc 4 5 0 _ rest (by decide)]
  simp

theorem dec_varint_enc (v : Nat) (rest : List Nat) (hv : v < 2 ^ 32) :
    dec_varint (enc_varint v ++ rest) = some (v, (enc_varint v).length) := by
  unfold dec_varint enc_varint
  rw [Nat.mod_eq_of_lt hv]
  rw [dec_varint_go_enc 4 5 1 0 0 v rest (by decide) (by
    calc v < 2 ^ 32 := hv
      _ ≤ 128 ^ (4 + 1) := by decide)]
  simp

theorem verify_varint_invalid (b0 b1 b2 b3 b4 : Nat) (rest : List Nat)
    (h0 : 128 ≤ b0) (h1 : 128 ≤ b1) (h2 : 128 ≤ b2) (h3 : 128 ≤ b3) (h4 : 128 ≤ b4) :
    verify_varint (b0 :: b1 :: b2 :: b3 :: b4 :: rest) = Varnum.invalid := by
  have e0 : ¬ b0 < 128 := by omega
  have e1 : ¬ b1 < 128 := by omega
  have e2 : ¬ b2 < 128 := by omega
  have e3 : ¬ b3 < 128 := by omega
  have e4 : ¬ b4 < 128 := by omega
  simp [verify_varint, verify_varint_go, e0, e1, e2, e3, e4]

section engine
variable {σ κ ρ : Type}

theorem receive_emitted (buf : mutable_buffer) (bytes : List Nat) (io st : IOCore σ κ ρ)
    (h : receive buf bytes io = Outcome.ok st) : st.emitted = io.emitted := by
  unfold receive at h
  split at h
  · cases h
  · cases h
    rfl

theorem decrypt_read_buf_emitted (env : Env σ κ ρ) (len : Nat) (io st : IOCore σ κ ρ)
    (h : decrypt_read_buf env len io = Outcome.ok st) : st.emitted = io.emitted := by
  unfold decrypt_read_buf at h
  split at h
  · split at h
    · cases h
    · split at h
      · cases h
      · cases h
        rfl
  · cases h
    rfl

theorem commit_read_emitted (env : Env σ κ ρ) (len : Nat) (io st : IOCore σ κ ρ)
    (h : commit_read env len io = Outcome.ok st) : st.emitted = io.emitted := by
  unfold commit_read at h
  cases hd : decrypt_read_buf env len io with
  | ok io1 =>
    rw [hd] at h
    simp only [Outcome.bind, Outcome.ok.injEq] at h
    rw [← h]
    exact decrypt_read_buf_emitted env len io io1 hd
  | exit c e => rw [hd] at h; cases h
  | throw w e => rw [hd] at h; cases h
  | undefined e => rw [hd] at h; cases h

/-- C5 (amended). When an `async_read_some` completes and the readable bytes of `in_buf`
then start with five bytes that all have the continuation bit set, `verify_varint` says
`Invalid` and `header_handler` leaves the process through `exit(-1)` with no event
emitted; the loop of `run` ends there, so the kill event, which `run` emits after its
loop, is not emitted.  Here `st0` is the engine once the bytes read are in the region
`buf`, and `st` the engine once `header_handler` has committed them. -/
theorem header_handler_invalid_exits (env : Env σ κ ρ) (io st0 st : IOCore σ κ ρ)
    (buf : mutable_buffer) (chunks incoming : List Nat) (n : Nat)
    (b0 b1 b2 b3 b4 : Nat) (rest : List Nat) (hin : incoming ≠ [])
    (hrecv : receive buf (incoming.take (read_some_len chunks buf incoming)) io
      = Outcome.ok st0)
    (hcommit : commit_read env (read_some_len chunks buf incoming) st0 = Outcome.ok st)
    (hhead : st.in_buf.data = b0 :: b1 :: b2 :: b3 :: b4 :: rest)
    (h0 : 128 ≤ b0) (h1 : 128 ≤ b1) (h2 : 128 ≤ b2) (h3 : 128 ≤ b3) (h4 : 128 ≤ b4) :
    verify_varint st.in_buf.data = Varnum.invalid
    ∧ header_handler env false (read_some_len chunks buf incoming) st0
      = Outcome.exit (-1) io.emitted
    ∧ run env (n + 1) chunks incoming (Pending.read_some buf) io = Outcome.exit (-1) io.emitted
    ∧ (events (run env (n + 1) chunks incoming (Pending.read_some buf) io)).count Event.kill
      = io.emitted.count Event.kill := by
  have hv := verify_varint_invalid b0 b1 b2 b3 b4 rest h0 h1 h2 h3 h4
  rw [← hhead] at hv
  have hem : st.emitted = io.emitted :=
    (commit_read_emitted env _ st0 st hcommit).trans (receive_emitted _ _ io st0 hrecv)
  have hh : header_handler env false (read_some_len chunks buf incoming) st0
      = Outcome.exit (-1) io.emitted := by
    unfold header_handler
    simp only [Bool.false_eq_true, if_false, hcommit, Outcome.bind, hv, hem]
  have hr : run env (n + 1) chunks incoming (Pending.read_some buf) io
      = Outcome.exit (-1) io.emitted := by
    simp only [run, hin, if_false, hrecv, hh, Outcome.bind]
  exact ⟨hv, hh, hr, by rw [hr]; rfl⟩

end engine

/-! ## The inbound path: a read and its commit -/

theorem Streambuf.store_at_pptr (b : Streambuf) (bytes : List Nat)
    (h : bytes.length ≤ b.put.length) :
    b.store b.pptr bytes = some { b with put := bytes ++ b.put.drop bytes.length } := by
  have h0 := Streambuf.store_put b 0 bytes (by omega)
  simp only [Nat.add_zero, List.take_zero, List.nil_append, Nat.zero_add] at h0
  exact h0

theorem size_t_sub_of_le (a b : Nat) (hb : b ≤ a) (ha : a < 2 ^ 64) : size_t_sub a b = a - b := by
  unfold size_t_sub
  have h64 : (2 : Nat) ^ 64 = 18446744073709551616 := by norm_num
  rw [h64] at ha ⊢
  omega

section engine
variable {σ κ ρ : Type}

/-- A socket read of `bytes` into a region that starts at the put pointer. -/
theorem receive_at_pptr (io : IOCore σ κ ρ) (bytes : List Nat) (n : Nat)
    (hn : bytes.length ≤ n) (hroom : bytes.length ≤ io.in_buf.put.length) :
    receive { data := io.in_buf.pptr, size := n } bytes io
      = Outcome.ok
          { io with
            in_buf := { io.in_buf with put := bytes ++ io.in_buf.put.drop bytes.length } } := by
  simp only [receive]
  rw [List.take_of_length_le hn, Streambuf.store_at_pptr _ _ hroom]

/-- The commit of a handler when the engine does not decrypt. -/
theorem commit_read_plain (env : Env σ κ ρ) (len : Nat) (io : IOCore σ κ ρ)
    (he : io.encrypted = false) :
    commit_read env len io = Outcome.ok { io with in_buf := io.in_buf.commit len } := by
  simp [commit_read, decrypt_read_buf, he, Outcome.bind]

/-- A socket read of `bytes` into a region just prepared at the put pointer, followed by
the commit of the handler, when the engine does not decrypt. -/
theorem commit_read_after_receive (env : Env σ κ ρ) (io : IOCore σ κ ρ) (bytes : List Nat)
    (n : Nat) (he : io.encrypted = false) (hn : bytes.length ≤ n)
    (hroom : bytes.length ≤ io.in_buf.put.length) :
    (receive { data := io.in_buf.pptr, size := n } bytes io).bind
        (commit_read env bytes.length)
      = Outcome.ok
          { io with
            in_buf :=
              { gone := io.in_buf.gone,
                data := io.in_buf.data ++ bytes,
                put := io.in_buf.put.drop bytes.length } } := by
  rw [receive_at_pptr io bytes n hn hroom]
  simp only [Outcome.bind]
  rw [commit_read_plain env _ _ (by exact he)]
  simp [Streambuf.commit]

end engine

/-! ## The inbound path: the stale read buffer and the over-read -/

theorem Streambuf.poke_length (m m1 : List Nat) (p : Nat) (bytes : List Nat)
    (h : Streambuf.poke m p bytes = some m1) : m1.length = m.length := by
  unfold Streambuf.poke at h
  split at h
  · cases h
    simp only [List.length_append, List.length_take, List.length_drop]
    omega
  · cases h

theorem Streambuf.store_lengths (b b1 : Streambuf) (p : Nat) (bytes : List Nat)
    (h : b.store p bytes = some b1) :
    b1.gone.length = b.gone.length ∧ b1.data.length = b.data.length
      ∧ b1.put.length = b.put.length := by
  unfold Streambuf.store at h
  cases hp : Streambuf.poke b.mem p bytes with
  | none => rw [hp] at h; cases h
  | some m =>
    rw [hp] at h
    have hl := Streambuf.poke_length _ _ _ _ hp
    cases h
    simp only [List.length_take, List.length_drop, hl]
    simp only [Streambuf.mem, List.length_append]
    omega

section engine
variable {σ κ ρ : Type}

theorem decrypt_read_buf_shape (env : Env σ κ ρ) (len : Nat) (io st : IOCore σ κ ρ)
    (h : decrypt_read_buf env len io = Outcome.ok st) :
    st.read_buf = io.read_buf
      ∧ st.in_buf.gone.length = io.in_buf.gone.length
      ∧ st.in_buf.data.length = io.in_buf.data.length
      ∧ st.in_buf.put.length = io.in_buf.put.length := by
  unfold decrypt_read_buf at h
  split at h
  · split at h
    · cases h
    · rename_i bytes hload
      split at h
      · cases h
      · rename_i in_buf hstore
        cases h
        exact ⟨rfl, Streambuf.store_lengths _ _ _ _ hstore⟩
  · cases h
    exact ⟨rfl, rfl, rfl, rfl⟩

theorem commit_read_shape (env : Env σ κ ρ) (len : Nat) (io st : IOCore σ κ ρ)
    (h : commit_read env len io = Outcome.ok st) :
    st.read_buf = io.read_buf
      ∧ st.in_buf.gone.length = io.in_buf.gone.length
      ∧ st.in_buf.data.length = io.in_buf.data.length + min len io.in_buf.put.length
      ∧ st.in_buf.put.length = io.in_buf.put.length - len := by
  unfold commit_read at h
  cases hd : decrypt_read_buf env len io with
  | ok io1 =>
    rw [hd] at h
    simp only [Outcome.bind, Outcome.ok.injEq] at h
    obtain ⟨h1, h2, h3, h4⟩ := decrypt_read_buf_shape env len io io1 hd
    rw [← h]
    refine ⟨h1, h2, ?_, ?_⟩
    · simp only [Streambuf.commit, List.length_append, List.length_take]
      rw [h3, h4]
    · simp only [Streambuf.commit, List.length_drop]
      rw [h4]
  | exit c e => rw [hd] at h; cases h
  | throw w e => rw [hd] at h; cases h
  | undefined e => rw [hd] at h; cases h

/-- C7 (what the code does). When `header_handler` answers `Overrun` by starting another
`async_read_some`, the region it hands to the socket starts `len` bytes after the start
of `read_buf`, and `read_buf` is left as it was: the next call of `header_handler`
decrypts from the old start of `read_buf`, not the region the read wrote into. -/
theorem header_handler_overrun_stale_read_buf (env : Env σ κ ρ) (io io1 : IOCore σ κ ρ)
    (len : Nat) (buf : mutable_buffer)
    (h : header_handler env false len io = Outcome.ok (io1, Pending.read_some buf))
    (hptr : io.read_buf.data = io.in_buf.pptr) (hlen : 0 < len)
    (hput : len ≤ io.in_buf.put.length)
    (h5 : 5 ≤ io.in_buf.data.length + io.in_buf.put.length)
    (hsz : io.in_buf.data.length + len ≤ 5) :
    io1.read_buf = io.read_buf ∧ buf.data = io.read_buf.data + len
      ∧ buf.data ≠ io1.read_buf.data := by
  unfold header_handler at h
  simp only [Bool.false_eq_true, if_false] at h
  cases hcr : commit_read env len io with
  | exit c e => rw [hcr] at h; cases h
  | throw w e => rw [hcr] at h; cases h
  | undefined e => rw [hcr] at h; cases h
  | ok st =>
    rw [hcr] at h
    simp only [Outcome.bind] at h
    obtain ⟨hrb, hg, hd, hpl⟩ := commit_read_shape env len io st hcr
    rw [Nat.min_eq_left hput] at hd
    have hsize : st.in_buf.size = io.in_buf.data.length + len := hd
    have hsub : size_t_sub 5 (io.in_buf.data.length + len)
        = 5 - (io.in_buf.data.length + len) :=
      size_t_sub_of_le _ _ hsz (by decide)
    have hnoop : st.in_buf.reserve (5 - (io.in_buf.data.length + len)) = st.in_buf := by
      unfold Streambuf.reserve
      rw [if_pos (by rw [hpl]; omega)]
    have hfit : st.in_buf.fits (5 - (io.in_buf.data.length + len)) := by
      left; rw [hpl]; omega
    have hprep := Streambuf.prepare_of_fits _ _ hfit
    rw [hnoop] at hprep
    split at h
    · cases h
    · rw [hsize, hsub, hprep] at h
      simp only [Outcome.ok.injEq, Prod.mk.injEq, Pending.read_some.injEq] at h
      obtain ⟨hio, hbuf⟩ := h
      have h1 : io1.read_buf = io.read_buf := by rw [← hio]; exact hrb
      have h2 : buf.data = io.read_buf.data + len := by
        rw [← hbuf, hptr]
        simp only [Streambuf.pptr, hg, hd]
        omega
      exact ⟨h1, h2, by rw [h1, h2]; omega⟩
    · split at h
      · cases h
      · split at h <;> cases h

/-- C6 (what the code does). When the readable bytes of `in_buf` after a read start with
the varint of `M` and more than `M` bytes follow, the size `header_handler` asks
`in_buf.prepare` for is `M - k` computed in `std::size_t`, that is `2 ^ 64 - (k - M)`,
and `prepare` throws `std::length_error`.  Here `st` is the engine once `header_handler`
has committed the `len` bytes read. -/
theorem header_handler_overread_throws (env : Env σ κ ρ) (io st : IOCore σ κ ρ) (len M : Nat)
    (rest : List Nat)
    (hcr : commit_read env len io = Outcome.ok st)
    (hdata : st.in_buf.data = enc_varint M ++ rest)
    (hM : M < 2 ^ 32) (hk : M < rest.length)
    (hmem : st.in_buf.put.length + rest.length < 2 ^ 64) :
    size_t_sub M rest.length = 2 ^ 64 - (rest.length - M)
      ∧ header_handler env false len io = Outcome.throw "std::length_error" io.emitted := by
  have h64 : (2 : Nat) ^ 64 = 18446744073709551616 := by norm_num
  have h32 : (2 : Nat) ^ 32 = 4294967296 := by norm_num
  have hsub : size_t_sub M rest.length = 2 ^ 64 - (rest.length - M) := by
    unfold size_t_sub
    rw [h64] at hmem ⊢
    rw [h32] at hM
    omega
  refine ⟨hsub, ?_⟩
  unfold header_handler
  simp only [Bool.false_eq_true, if_false, hcr, Outcome.bind, hdata, verify_varint_enc,
    dec_varint_enc _ _ hM]
  have hsz : (st.in_buf.consume (enc_varint M).length).size = rest.length := by
    simp [Streambuf.size, Streambuf.consume, hdata]
  have hnofit : ¬ (st.in_buf.consume (enc_varint M).length).fits
      (2 ^ 64 - (rest.length - M)) := by
    unfold Streambuf.fits
    have hd : (st.in_buf.consume (enc_varint M).length).data.length = rest.length := hsz
    have hp : (st.in_buf.consume (enc_varint M).length).put.length
        = st.in_buf.put.length := rfl
    have hms : max_size = 18446744073709551615 := by decide
    rw [hd, hp, hms, h64]
    rw [h64] at hmem
    omega
  rw [hsz, hsub]
  have hprep : (st.in_buf.consume (enc_varint M).length).prepare
      (2 ^ 64 - (rest.length - M)) = none := by
    unfold Streambuf.prepare
    rw [if_neg hnofit]
  rw [hprep]
  simp only [commit_read_emitted env len io st hcr]

end engine

/-! ## The inbound path: one completion at a time -/

theorem verify_varint_go_take (n : Nat) : ∀ (f seen v j : Nat),
    j < (enc_varint_go n v).length → j < f →
    verify_varint_go f seen ((enc_varint_go n v).take j) = Varnum.overrun := by
  induction n with
  | zero =>
    intro f seen v j hj hf
    obtain ⟨f, rfl⟩ : ∃ g, f = g + 1 := ⟨f - 1, by omega⟩
    have : j = 0 := by simp [enc_varint_go] at hj; exact hj
    subst this
    simp [verify_varint_go]
  | succ n ih =>
    intro f seen v j hj hf
    obtain ⟨f, rfl⟩ : ∃ g, f = g + 1 := ⟨f - 1, by omega⟩
    cases j with
    | zero => simp [verify_varint_go]
    | succ j =>
      unfold enc_varint_go at hj ⊢
      split at hj
      · simp at hj
      · rename_i hv
        have hb : ¬ v % 128 + 128 < 128 := by omega
        simp only [if_neg hv, List.take_succ_cons, verify_varint_go, hb, if_false]
        exact ih f (seen + 1) (v / 128) j (by simpa using hj) (by omega)

theorem verify_varint_take (v j : Nat) (hj : j < (enc_varint v).length) :
    verify_varint ((enc_varint v).take j) = Varnum.overrun := by
  unfold verify_varint enc_varint
  have h5 := enc_varint_length_le v
  exact verify_varint_go_take 4 5 0 _ j hj (by omega)

section engine
variable {σ κ ρ : Type}

/-- The commit of a handler on the engine a socket read into the put area has left, when
the engine does not decrypt. -/
theorem commit_read_received (env : Env σ κ ρ) (st : IOCore σ κ ρ) (bytes : List Nat)
    (he : st.encrypted = false) :
    commit_read env bytes.length
        { st with
          in_buf := { st.in_buf with put := bytes ++ st.in_buf.put.drop bytes.length } }
      = Outcome.ok
          { st with
            in_buf :=
              { gone := st.in_buf.gone,
                data := st.in_buf.data ++ bytes,
                put := st.in_buf.put.drop bytes.length } } := by
  rw [commit_read_plain env _ _ (by exact he)]
  simp [Streambuf.commit]

/-- One completion of the header phase that leaves the length prefix incomplete: the
handler answers `Overrun` and starts a read just after the bytes received so far. -/
theorem header_handler_incomplete (env : Env σ κ ρ) (st : IOCore σ κ ρ) (chunk : List Nat)
    (nreq v j : Nat) (he : st.encrypted = false)
    (hdata : st.in_buf.data ++ chunk = (enc_varint v).take j)
    (hj : j < (enc_varint v).length) (hjl : (st.in_buf.data ++ chunk).length = j)
    (hn : chunk.length ≤ nreq) (hroom : 5 - st.in_buf.data.length ≤ st.in_buf.put.length)
    (hc5 : chunk.length ≤ 5 - st.in_buf.data.length) :
    (receive { data := st.in_buf.pptr, size := nreq } chunk st).bind
        (header_handler env false chunk.length)
      = Outcome.ok
          ({ st with
              in_buf :=
                { gone := st.in_buf.gone,
                  data := st.in_buf.data ++ chunk,
                  put := st.in_buf.put.drop chunk.length } },
           Pending.read_some
             { data := st.in_buf.pptr + chunk.length, size := 5 - j }) := by
  have hcr := commit_read_received env st chunk he
  have h5 := enc_varint_length_le v
  rw [receive_at_pptr st chunk nreq hn (by omega)]
  simp only [Outcome.bind]
  unfold header_handler
  simp only [Bool.false_eq_true, if_false, hcr, Outcome.bind, hdata, verify_varint_take v j hj]
  have hsz : (Streambuf.size { gone := st.in_buf.gone, data := (enc_varint v).take j,
                               put := st.in_buf.put.drop chunk.length }) = j := by
    show ((enc_varint v).take j).length = j
    rw [← hdata]; exact hjl
  rw [hsz, size_t_sub_of_le 5 j (by omega) (by decide)]
  rw [List.length_append] at hjl
  have hfit : (Streambuf.fits { gone := st.in_buf.gone, data := (enc_varint v).take j,
                                put := st.in_buf.put.drop chunk.length }) (5 - j) := by
    left
    show 5 - j ≤ (st.in_buf.put.drop chunk.length).length
    rw [List.length_drop]; omega
  rw [Streambuf.prepare_of_fits _ _ hfit]
  have hnoop : Streambuf.reserve { gone := st.in_buf.gone, data := (enc_varint v).take j,
                                   put := st.in_buf.put.drop chunk.length } (5 - j)
      = { gone := st.in_buf.gone, data := (enc_varint v).take j,
          put := st.in_buf.put.drop chunk.length } := by
    unfold Streambuf.reserve
    rw [if_pos (by show 5 - j ≤ (st.in_buf.put.drop chunk.length).length
                   rw [List.length_drop]; omega)]
  simp only [hnoop]
  have hp : Streambuf.pptr { gone := st.in_buf.gone, data := (enc_varint v).take j,
                             put := st.in_buf.put.drop chunk.length }
      = st.in_buf.pptr + chunk.length := by
    show st.in_buf.gone.length + ((enc_varint v).take j).length = _
    rw [← hdata, List.length_append]
    simp only [Streambuf.pptr]; omega
  rw [hp]

/-- One completion of the header phase that completes the length prefix `varint(L)` of
a frame with body `B`, `k` bytes of which have arrived: the handler consumes the prefix
and starts a read of the `L - k` missing bytes. -/
theorem header_handler_complete (env : Env σ κ ρ) (st : IOCore σ κ ρ) (chunk B : List Nat)
    (nreq k : Nat) (he : st.encrypted = false)
    (hdata : st.in_buf.data ++ chunk = enc_varint B.length ++ B.take k)
    (hk : k ≤ B.length) (hL : B.length < 2 ^ 32)
    (hn : chunk.length ≤ nreq) (hroom : chunk.length ≤ st.in_buf.put.length) :
    ∃ st1 : IOCore σ κ ρ,
      (receive { data := st.in_buf.pptr, size := nreq } chunk st).bind
          (header_handler env false chunk.length)
        = Outcome.ok (st1, Pending.read { data := st1.in_buf.pptr, size := B.length - k })
      ∧ st1.in_buf.data = B.take k
      ∧ B.length - k ≤ st1.in_buf.put.length
      ∧ st1.encrypted = st.encrypted ∧ st1.compressed = st.compressed
      ∧ st1.emitted = st.emitted ∧ st1.state = st.state ∧ st1.kill = st.kill
      ∧ st1.out_buf = st.out_buf := by
  have hcr := commit_read_received env st chunk he
  have hsub : size_t_sub B.length (B.take k).length = B.length - k := by
    rw [List.length_take, Nat.min_eq_left hk]
    exact size_t_sub_of_le _ _ hk (lt_trans hL (by decide))
  let mid : Streambuf :=
    { gone := st.in_buf.gone ++ enc_varint B.length, data := B.take k,
      put := st.in_buf.put.drop chunk.length }
  have hfit2 : mid.fits (B.length - k) := by
    right
    have hl : mid.data.length = k := by
      show (B.take k).length = _
      rw [List.length_take, Nat.min_eq_left hk]
    rw [hl]
    have h32 : (2 : Nat) ^ 32 = 4294967296 := by norm_num
    have hms : max_size = 18446744073709551615 := by decide
    rw [h32] at hL
    rw [hms]
    omega
  refine ⟨{ st with in_buf := mid.reserve (B.length - k),
                    read_buf := { data := (mid.reserve (B.length - k)).pptr,
                                  size := B.length - k } }, ?_, ?_, ?_, rfl, rfl, rfl, rfl, rfl, rfl⟩
  · rw [receive_at_pptr st chunk nreq hn hroom]
    simp only [Outcome.bind]
    unfold header_handler
    simp only [Bool.false_eq_true, if_false, hcr, Outcome.bind, hdata, verify_varint_enc,
      dec_varint_enc _ _ hL]
    have hcons : Streambuf.consume
        { gone := st.in_buf.gone,
          data := enc_varint B.length ++ B.take k,
          put := st.in_buf.put.drop chunk.length } (enc_varint B.length).length = mid := by
      simp only [Streambuf.consume, mid, List.take_left, List.drop_left]
    simp only [hcons]
    have hsz : mid.size = (B.take k).length := rfl
    rw [hsz, hsub, Streambuf.prepare_of_fits _ _ hfit2]
  · show (mid.reserve (B.length - k)).data = B.take k
    rw [Streambuf.reserve_data]
  · exact Streambuf.reserve_put_length mid (B.length - k)

/-- The completion of the body read: when `k` bytes of the body `B` are readable and
the rest arrives in the region prepared for it, `read_packet_handler` (compression off,
no decryption) runs the decoder on a state whose readable bytes are exactly `B`. -/
theorem read_packet_handler_presents (env : Env σ κ ρ) (st : IOCore σ κ ρ) (B : List Nat)
    (k : Nat) (he : st.encrypted = false) (hc : st.compressed = false)
    (hdata : st.in_buf.data = B.take k)
    (hroom : B.length - k ≤ st.in_buf.put.length) :
    ∃ rx : IOCore σ κ ρ,
      (receive { data := st.in_buf.pptr, size := B.length - k } (B.drop k) st).bind
          (read_packet_handler env false (B.length - k))
        = decode_packet env rx
      ∧ rx.in_buf.data = B
      ∧ rx.encrypted = st.encrypted ∧ rx.compressed = st.compressed
      ∧ rx.emitted = st.emitted ∧ rx.state = st.state ∧ rx.kill = st.kill
      ∧ rx.out_buf = st.out_buf := by
  have hlen : (B.drop k).length = B.length - k := List.length_drop k B
  have hcr := commit_read_received env st (B.drop k) he
  rw [hlen] at hcr
  refine ⟨{ st with
            in_buf :=
              { gone := st.in_buf.gone,
                data := st.in_buf.data ++ B.drop k,
                put := st.in_buf.put.drop (B.length - k) } }, ?_, ?_, rfl, rfl, rfl, rfl, rfl,
    rfl⟩
  · rw [receive_at_pptr st (B.drop k) (B.length - k) (by rw [hlen])
      (by rw [hlen]; exact hroom)]
    simp only [Outcome.bind]
    unfold read_packet_handler
    simp only [Bool.false_eq_true, if_false, hlen]
    rw [hcr]
    simp [hc, Outcome.bind]
  · simp [hdata]

end engine

/-! ## The inbound path: any sequence of completions -/

section engine
variable {σ κ ρ : Type}

theorem Outcome.ok_bind {α β : Type} (a : α) (f : α → Outcome β) :
    (Outcome.ok a).bind f = f a := rfl

theorem read_some_len_bounds (chunks : List Nat) (buf : mutable_buffer) (incoming : List Nat)
    (hb : 0 < buf.size) (hi : 0 < incoming.length) :
    0 < read_some_len chunks buf incoming ∧ read_some_len chunks buf incoming ≤ buf.size
      ∧ read_some_len chunks buf incoming ≤ incoming.length := by
  unfold read_some_len
  omega

/-- The header phase of `run`, for a frame `varint(L) ++ B` of which `m` bytes, fewer than
the length prefix has, have arrived: whatever sizes the coming completions have, the loop
reaches the decoder with exactly `B` readable. -/
theorem run_header_phase (env : Env σ κ ρ) (B : List Nat) (hL : B.length < 2 ^ 32) :
    ∀ (d m : Nat) (st : IOCore σ κ ρ) (chunks : List Nat),
      (enc_varint B.length).length - m ≤ d → m < (enc_varint B.length).length →
      st.encrypted = false → st.compressed = false →
      st.in_buf.data = (enc_varint B.length).take m → 5 - m ≤ st.in_buf.put.length →
      ∃ (rx : IOCore σ κ ρ) (steps : Nat) (chunks1 : List Nat),
        steps ≤ d + 1 ∧ rx.in_buf.data = B
        ∧ rx.encrypted = st.encrypted ∧ rx.compressed = st.compressed
        ∧ rx.emitted = st.emitted ∧ rx.state = st.state ∧ rx.kill = st.kill
        ∧ rx.out_buf = st.out_buf
        ∧ ∀ n, run env (steps + n) chunks ((enc_varint B.length ++ B).drop m)
              (Pending.read_some { data := st.in_buf.pptr, size := 5 - m }) st
            = (decode_packet env rx).bind (fun io1 => run env n chunks1 [] Pending.idle io1) := by
  intro d
  induction d with
  | zero => intro m st chunks hd hm; omega
  | succ d ih =>
    intro m st chunks hd hm he hc hdata hroom
    have h5 := enc_varint_length_le B.length
    generalize hH : enc_varint B.length = H at *
    have hinc : ((H ++ B).drop m).length = H.length + B.length - m := by
      rw [List.length_drop, List.length_append]
    obtain ⟨hl0, hl1, hl2⟩ := read_some_len_bounds chunks
      { data := st.in_buf.pptr, size := 5 - m } ((H ++ B).drop m)
      (by show 0 < 5 - m; omega) (by rw [hinc]; omega)
    generalize hlen : read_some_len chunks { data := st.in_buf.pptr, size := 5 - m }
      ((H ++ B).drop m) = len at *
    have hl1' : len ≤ 5 - m := hl1
    rw [hinc] at hl2
    have hne : (H ++ B).drop m ≠ [] := by
      intro h; rw [h] at hinc; simp at hinc; omega
    have hclen : (((H ++ B).drop m).take len).length = len := by
      rw [List.length_take, hinc]; omega
    have hsum : st.in_buf.data ++ ((H ++ B).drop m).take len = (H ++ B).take (m + len) := by
      rw [hdata, List.take_add]
      congr 1
      rw [List.take_append_of_le_length (by omega)]
    have hdl : st.in_buf.data.length = m := by
      rw [hdata, List.length_take]; omega
    have hrest : ((H ++ B).drop m).drop len = (H ++ B).drop (m + len) := by
      rw [List.drop_drop, Nat.add_comm]
    by_cases hcase : m + len < H.length
    · -- the prefix is still incomplete
      have htk : (H ++ B).take (m + len) = H.take (m + len) :=
        List.take_append_of_le_length (by omega)
      have hstep := header_handler_incomplete env st (((H ++ B).drop m).take len) (5 - m)
        B.length (m + len) he (by rw [hsum, htk, hH]) (by rw [hH]; exact hcase)
        (by rw [List.length_append, hdl, hclen])
        (by rw [hclen]; exact hl1') (by rw [hdl]; exact hroom)
        (by rw [hclen, hdl]; exact hl1')
      rw [hclen] at hstep
      obtain ⟨rx, steps, chunks1, hs, hB, h1, h2, h3, h4, h5', h6, hrun⟩ :=
        ih (m + len)
          { st with
              in_buf :=
                { gone := st.in_buf.gone,
                  data := st.in_buf.data ++ ((H ++ B).drop m).take len,
                  put := st.in_buf.put.drop len } }
          chunks.tail (by omega) hcase he hc (by rw [hsum, htk])
          (by show 5 - (m + len) ≤ (st.in_buf.put.drop len).length
              rw [List.length_drop]; omega)
      refine ⟨rx, steps + 1, chunks1, by omega, hB, h1, h2, h3, h4, h5', h6, ?_⟩
      intro n
      have hn : steps + 1 + n = (steps + n) + 1 := by omega
      rw [hn]
      simp only [run, hne, if_false, hlen, hrest]
      rw [hstep]
      simp only [Outcome.bind]
      have hp : Streambuf.pptr
          { gone := st.in_buf.gone,
            data := st.in_buf.data ++ ((H ++ B).drop m).take len,
            put := st.in_buf.put.drop len } = st.in_buf.pptr + len := by
        show st.in_buf.gone.length + (st.in_buf.data ++ ((H ++ B).drop m).take len).length = _
        rw [List.length_append, hclen]
        simp only [Streambuf.pptr]; omega
      rw [← hp]
      exact hrun n
    · -- the prefix is complete
      have hk : m + len - H.length ≤ B.length := by omega
      have htk : (H ++ B).take (m + len) = H ++ B.take (m + len - H.length) := by
        rw [List.take_append_eq_append_take, List.take_of_length_le (by omega)]
      obtain ⟨st1, hstep, hd1, hroom1, he1, hc1, hem1, hst1, hk1, ho1⟩ :=
        header_handler_complete env st (((H ++ B).drop m).take len) B (5 - m)
          (m + len - H.length) he (by rw [hsum, htk, hH]) hk hL
          (by rw [hclen]; exact hl1') (by rw [hclen]; omega)
      rw [hclen] at hstep
      obtain ⟨rx, hread, hB, h1, h2, h3, h4, h5', h6⟩ :=
        read_packet_handler_presents env st1 B (m + len - H.length) (he1.trans he)
          (hc1.trans hc) hd1 hroom1
      have hrest2 : (H ++ B).drop (m + len) = B.drop (m + len - H.length) := by
        rw [List.drop_append_eq_append_drop, List.drop_of_length_le (by omega), List.nil_append]
      have hrl : (B.drop (m + len - H.length)).length = B.length - (m + len - H.length) :=
        List.length_drop _ _
      refine ⟨rx, 2, chunks.tail, by omega, hB, h1.trans he1, h2.trans hc1, h3.trans hem1,
        h4.trans hst1, h5'.trans hk1, h6.trans ho1, ?_⟩
      intro n
      have hn : 2 + n = (n + 1) + 1 := by omega
      rw [hn]
      simp only [run, hne, if_false, hlen, hrest, hrest2]
      rw [hstep]
      simp only [Outcome.ok_bind, run]
      have hnlt : ¬ (B.drop (m + len - H.length)).length < B.length - (m + len - H.length) := by
        rw [hrl]; omega
      simp only [hnlt, if_false]
      have htake : (B.drop (m + len - H.length)).take (B.length - (m + len - H.length))
          = B.drop (m + len - H.length) := List.take_of_length_le (by rw [hrl])
      have hdrop : (B.drop (m + len - H.length)).drop (B.length - (m + len - H.length)) = [] :=
        List.drop_of_length_le (by rw [hrl])
      rw [htake, hdrop, hread]

end engine

/-! ## The round trip of a plain frame -/

section engine
variable {σ κ ρ : Type}

theorem commit_read_compressed (env : Env σ κ ρ) (len : Nat) (io st : IOCore σ κ ρ)
    (h : commit_read env len io = Outcome.ok st) : st.compressed = io.compressed := by
  unfold commit_read at h
  cases hd : decrypt_read_buf env len io with
  | ok io1 =>
    rw [hd] at h
    simp only [Outcome.bind, Outcome.ok.injEq] at h
    rw [← h]
    unfold decrypt_read_buf at hd
    split at hd
    · split at hd
      · cases hd
      · split at hd
        · cases hd
        · cases hd
          rfl
    · cases hd
      rfl
  | exit c e => rw [hd] at h; cases h
  | throw w e => rw [hd] at h; cases h
  | undefined e => rw [hd] at h; cases h

/-- The decrypt-and-commit step of a handler either succeeds or leaves the vector of
`in_buf`. -/
theorem commit_read_cases (env : Env σ κ ρ) (len : Nat) (io : IOCore σ κ ρ) :
    (∃ st, commit_read env len io = Outcome.ok st)
      ∨ commit_read env len io = Outcome.undefined io.emitted := by
  unfold commit_read decrypt_read_buf
  split
  · split
    · right; rfl
    · split
      · right; rfl
      · left; exact ⟨_, rfl⟩
  · left; exact ⟨_, rfl⟩

/-- C9 (amended). With compression and encryption off, empty scratch buffers and an empty
inbound buffer, `encode_packet` appends the frame `varint(L) ++ B` of a packet with bytes
`B` (`L < 2 ^ 32`); when that frame reaches `run` in the same mode, then for every way
of splitting it into `async_read_some` completions the loop arrives, within seven
steps, at the decoder `decode_packet` in a state whose readable inbound bytes are
exactly `B`.  With compression on, `read_packet_handler` always throws
`"Compression Unimplemented"`, unless its decryption in place leaves the vector of
`in_buf`, which has no defined behaviour and cannot happen with encryption off. -/
theorem plain_frame_round_trip (env : Env σ κ ρ) (packet : Packet) (io : IOCore σ κ ρ)
    (chunks : List Nat) (hc : io.compressed = false) (he : io.encrypted = false)
    (hp : io.pak_buf.data = []) (hh : io.header_buf.data = [])
    (hin : io.in_buf.data = []) (hkill : io.kill = false)
    (hL : (enc_varint packet.packet_id ++ packet.body).length < 2 ^ 32)
    (hsize : io.out_buf.data.length + (enc_varint packet.packet_id ++ packet.body).length + 6
      ≤ max_size) :
    (∃ (tx rx : IOCore σ κ ρ) (frame : List Nat) (steps : Nat) (chunks1 : List Nat),
      encode_packet env packet io = Outcome.ok tx
      ∧ tx.out_buf.data = io.out_buf.data ++ frame
      ∧ frame = enc_varint (enc_varint packet.packet_id ++ packet.body).length
          ++ (enc_varint packet.packet_id ++ packet.body)
      ∧ steps ≤ 7
      ∧ rx.in_buf.data = enc_varint packet.packet_id ++ packet.body
      ∧ rx.compressed = false ∧ rx.state = io.state ∧ rx.emitted = io.emitted
      ∧ ∀ n, run env (steps + n) chunks frame Pending.idle io
          = (decode_packet env rx).bind (fun io1 => run env n chunks1 [] Pending.idle io1))
    ∧ ∀ (len : Nat) (st : IOCore σ κ ρ), st.compressed = true →
        (read_packet_handler env false len st
            = Outcome.throw "Compression Unimplemented" st.emitted
          ∨ read_packet_handler env false len st = Outcome.undefined st.emitted)
        ∧ (st.encrypted = false →
            read_packet_handler env false len st
              = Outcome.throw "Compression Unimplemented" st.emitted)
        ∧ ∀ st1, commit_read env len st = Outcome.ok st1 →
            read_packet_handler env false len st
              = Outcome.throw "Compression Unimplemented" st.emitted := by
  constructor
  · -- the sending side
    have hnc : ¬ (io.compressed = true ∧ (packet_bytes packet).length > io.threshold) := by
      simp [hc]
    have hfit : io.out_buf.fits (wire_frame env packet io).length := by
      apply fits_of_le
      have := wire_frame_length_le env packet io hnc
      simp only [packet_bytes] at this
      omega
    obtain ⟨io1, h1, -, -, hout, -⟩ := encode_packet_framed_spec env packet io hp hh hfit
      (inside_of_not_encrypted env packet io he)
    have hframe : io1.out_buf.data
        = io.out_buf.data ++ (enc_varint (enc_varint packet.packet_id ++ packet.body).length
            ++ (enc_varint packet.packet_id ++ packet.body)) := by
      rw [hout]; simp [he, frame_header, frame_payload, hc, packet_bytes]
    generalize enc_varint packet.packet_id ++ packet.body = B at *
    -- the receiving side: the top of the loop prepares five bytes
    have hfit5 : io.in_buf.fits 5 := by
      right
      rw [hin]
      exact ⟨by decide, by decide⟩
    have hlenH := enc_varint_length_pos B.length
    have hlenH5 := enc_varint_length_le B.length
    obtain ⟨rx, steps, chunks1, hs, hB, -, h2, h3, h4, -, -, hrun⟩ :=
      run_header_phase env B hL (enc_varint B.length).length 0
        { io with
            out_buf := io.out_buf.consume io.out_buf.size,
            in_buf := io.in_buf.reserve 5,
            read_buf := { data := (io.in_buf.reserve 5).pptr, size := 5 } }
        chunks (by omega) hlenH he hc
        (by show (io.in_buf.reserve 5).data = _
            rw [Streambuf.reserve_data, hin]; rfl)
        (Streambuf.reserve_put_length io.in_buf 5)
    refine ⟨_, rx, _, steps + 1, chunks1, encode_packet_of_framed env packet io io1 h1, ?_, rfl,
      by omega, hB, h2.trans hc, h4, h3, ?_⟩
    · rw [(emit_serverbound_buffers env packet io1).1, hframe]
    · intro n
      have hn : steps + 1 + n = (steps + n) + 1 := by omega
      rw [hn]
      simp only [run, hkill, Bool.false_eq_true, if_false, Streambuf.prepare_of_fits _ _ hfit5]
      have hr := hrun n
      simp only [hkill] at hr
      exact hr
  · intro len st hst
    have hok : ∀ st1, commit_read env len st = Outcome.ok st1 →
        read_packet_handler env false len st
          = Outcome.throw "Compression Unimplemented" st.emitted := by
      intro st1 hcr
      have hcomp : st1.compressed = true :=
        (commit_read_compressed env len st st1 hcr).trans hst
      unfold read_packet_handler
      simp only [Bool.false_eq_true, if_false, hcr, Outcome.bind, hcomp, not_true_eq_false,
        commit_read_emitted env len st st1 hcr]
    refine ⟨?_, ?_, hok⟩
    · rcases commit_read_cases env len st with ⟨st1, h⟩ | h
      · exact Or.inl (hok st1 h)
      · right
        unfold read_packet_handler
        simp only [Bool.false_eq_true, if_false, h, Outcome.bind]
    · intro he
      exact hok _ (commit_read_plain env len st he)

end engine

/-! ## Concrete runs -/

/-- C1, at a concrete input: the demo engine with encryption on lays out the frame
`[3, 2, 7, 7]` and lets the encryptor work on four bytes from offset 1 on, which is
inside the eight bytes of its outbound buffer; it commits the header byte 3 in the clear
followed by the encrypted packet bytes, whereas the encryptor applied to the whole frame
gives `[4, 7, 15, 23]`; the byte after the frame, in the put area, was overwritten by
the encryptor.  With an outbound buffer of just four bytes the encryptor leaves the
vector and the behaviour is undefined. -/
theorem encode_packet_encrypted_header_in_clear_witness :
    demo_encrypted_io.encrypted = true
      ∧ demo_encrypted_io.pak_buf.data = [] ∧ demo_encrypted_io.header_buf.data = []
      ∧ wire_frame demo_env demo_packet demo_encrypted_io = [3, 2, 7, 7]
      ∧ encryptor_stays_inside demo_env demo_packet demo_encrypted_io
      ∧ (∃ a io1, encode_packet_assemble demo_env demo_packet demo_encrypted_io = Outcome.ok a
          ∧ a.write_buf.data = 1 ∧ a.write_size = 4
          ∧ encode_packet_framed demo_env demo_packet demo_encrypted_io = Outcome.ok io1
          ∧ io1.out_buf.data = [3, 3, 11, 19])
      ∧ (encode_packet_framed demo_env demo_packet demo_encrypted_io).get?.map
            (fun io => (io.out_buf.data, io.out_buf.put))
          = some ([3, 3, 11, 19], [20, 0, 0, 0])
      ∧ (demo_env.encryption.process demo_encrypted_io.encryptor [3, 2, 7, 7]).2
          = [4, 7, 15, 23]
      ∧ ¬ encryptor_stays_inside demo_env demo_packet demo_tight_io
      ∧ encode_packet demo_env demo_packet demo_tight_io = Outcome.undefined [] :=
  have h := encode_packet_encrypted_header_in_clear demo_env demo_packet demo_encrypted_io
    (by decide) (by decide) (by decide) (by decide)
  ⟨by decide, by decide, by decide, by decide, by decide,
   by
     obtain ⟨a, ha, hwb, hws, hin, -⟩ := h
     obtain ⟨io1, io2, h1, hout, -, -⟩ := hin (by decide)
     exact ⟨a, io1, ha, hwb.trans (by decide), hws.trans (by decide), h1,
       hout.trans (by decide)⟩,
   by decide, by decide, by decide, by decide⟩

/-- C2, at a concrete input: after `enable_compression` with threshold 256 the demo
engine still has `compressed` false and frames the next packet without the compressed
format. -/
theorem enable_compression_leaves_flag_witness :
    (enable_compression demo_env { threshold := 256 } demo_io).threshold = 256
      ∧ (enable_compression demo_env { threshold := 256 } demo_io).compressed = false
      ∧ (encode_packet demo_env demo_packet
            (enable_compression demo_env { threshold := 256 } demo_io)).get?.map
          (fun io => io.out_buf.data) = some [3, 2, 7, 7] :=
  have h := enable_compression_leaves_flag demo_env { threshold := 256 } demo_io
  ⟨h.1, h.2, by decide⟩

/-- C3, at a concrete input: with threshold 3 the three packet bytes of the demo packet
are framed as `[4, 0, 2, 7, 7]`, inner length 0 and no deflate; with threshold 2 they
are deflated. -/
theorem encode_packet_at_threshold_not_deflated_witness :
    demo_compressed_io.compressed = true
      ∧ (enc_varint demo_packet.packet_id ++ demo_packet.body).length
          = demo_compressed_io.threshold
      ∧ (∃ io1, encode_packet demo_env demo_packet demo_compressed_io = Outcome.ok io1
          ∧ io1.out_buf.data
              = demo_compressed_io.out_buf.data
                ++ enc_varint ((enc_varint demo_packet.packet_id ++ demo_packet.body).length + 1)
                ++ [0] ++ (enc_varint demo_packet.packet_id ++ demo_packet.body))
      ∧ (encode_packet demo_env demo_packet demo_compressed_io).get?.map
            (fun io => io.out_buf.data) = some [4, 0, 2, 7, 7]
      ∧ (encode_packet demo_env demo_packet demo_deflating_io).get?.map
            (fun io => io.out_buf.data) = some [5, 3, 120, 2, 7, 7] :=
  ⟨by decide, by decide,
   encode_packet_at_threshold_not_deflated demo_env demo_packet demo_compressed_io
     (by decide) (by decide) (by decide) (by decide) (by decide) (by decide),
   by decide, by decide⟩

/-- C4, at a concrete input: the demo engine frames the demo packet as `[3, 2, 7, 7]`. -/
theorem encode_packet_plain_appends_witness :
    demo_io.compressed = false ∧ demo_io.encrypted = false
      ∧ demo_io.pak_buf.data = [] ∧ demo_io.header_buf.data = []
      ∧ ∃ io1, encode_packet demo_env demo_packet demo_io = Outcome.ok io1
          ∧ io1.out_buf.data
              = demo_io.out_buf.data
                ++ enc_varint (enc_varint demo_packet.packet_id ++ demo_packet.body).length
                ++ (enc_varint demo_packet.packet_id ++ demo_packet.body) :=
  ⟨by decide, by decide, by decide, by decide,
   encode_packet_plain_appends demo_env demo_packet demo_io
     (by decide) (by decide) (by decide) (by decide) (by decide)⟩

/-- C5, counterexample: five bytes with the continuation bit set arrive at the demo
engine; the run ends in `exit(-1)` and the kill event was emitted zero times, not once. -/
theorem malformed_prefix_emits_no_kill :
    run demo_env 20 [] [128, 128, 128, 128, 128] Pending.idle demo_io = Outcome.exit (-1) []
      ∧ (receive { data := 0, size := 5 } [128, 128, 128, 128, 128] demo_reading_io).bind
          (header_handler demo_env false 5)
        = Outcome.exit (-1) []
      ∧ (events (run demo_env 20 [] [128, 128, 128, 128, 128] Pending.idle demo_io)).count
          Event.kill = 0
      ∧ (events (run demo_env 20 [] [128, 128, 128, 128, 128] Pending.idle demo_io)).count
          Event.kill ≠ 1 := by
  decide

/-- C5, at a concrete input: the amended statement applied to the demo engine. -/
theorem header_handler_invalid_exits_witness :
    receive { data := 0, size := 5 } [128, 128, 128, 128, 128] demo_reading_io
        = Outcome.ok demo_malformed_read_io
      ∧ commit_read demo_env 5 demo_malformed_read_io = Outcome.ok demo_malformed_committed_io
      ∧ demo_malformed_committed_io.in_buf.data = [128, 128, 128, 128, 128]
      ∧ verify_varint [128, 128, 128, 128, 128] = Varnum.invalid
      ∧ header_handler demo_env false 5 demo_malformed_read_io = Outcome.exit (-1) []
      ∧ run demo_env 1 [] [128, 128, 128, 128, 128]
          (Pending.read_some { data := 0, size := 5 }) demo_reading_io
        = Outcome.exit (-1) [] :=
  have h := header_handler_invalid_exits demo_env demo_reading_io demo_malformed_read_io
    demo_malformed_committed_io { data := 0, size := 5 } []
    [128, 128, 128, 128, 128] 0 128 128 128 128 128 [] (by decide) (by decide) (by decide)
    (by decide) (by decide) (by decide) (by decide) (by decide) (by decide)
  ⟨by decide, by decide, by decide, by decide, h.2.1, h.2.2.1⟩

/-- C6, at a concrete input: two frames of two bytes each, `[1, 0]` and `[1, 0]`, reach
the demo engine.  Handed over in one completion of four bytes, `header_handler` computes
`1 - 3` in `std::size_t`, `prepare` throws and no packet is emitted; handed over in two
completions of two bytes, both packets are emitted. -/
theorem header_handler_overread_throws_witness :
    receive { data := 0, size := 5 } [1, 0, 1, 0] demo_reading_io
        = Outcome.ok demo_frames_read_io
      ∧ commit_read demo_env 4 demo_frames_read_io = Outcome.ok demo_frames_committed_io
      ∧ demo_frames_committed_io.in_buf.data = enc_varint 1 ++ [0, 1, 0]
      ∧ size_t_sub 1 3 = 2 ^ 64 - 2
      ∧ header_handler demo_env false 4 demo_frames_read_io
        = Outcome.throw "std::length_error" []
      ∧ run demo_env 20 [4] [1, 0, 1, 0] Pending.idle demo_io
        = Outcome.throw "std::length_error" []
      ∧ events (run demo_env 20 [2, 2] [1, 0, 1, 0] Pending.idle demo_io)
        = [Event.packet State.LOGIN Direction.CLIENTBOUND 0 "mcd::Other *" [],
           Event.packet State.LOGIN Direction.CLIENTBOUND 0 "mcd::Other *" []] :=
  have h := header_handler_overread_throws demo_env demo_frames_read_io
    demo_frames_committed_io 4 1 [0, 1, 0] (by decide) (by decide) (by decide) (by decide)
    (by decide)
  ⟨by decide, by decide, by decide, h.1, h.2, by decide, by decide⟩

/-- C7, at a concrete input: with encryption on, the bytes 129 and 131 (the demo
encryptions of 128 and 1) arrive in two completions of one byte.  After the first, the
handler starts a read at offset 1 and leaves `read_buf` at offset 0; after the second,
`in_buf` holds `[254, 131]`: the first byte decrypted twice, the second not at all,
where the decryptor applied to the two bytes in order gives `[128, 1]`. -/
theorem header_handler_overrun_stale_read_buf_witness :
    receive { data := 0, size := 5 } [129] demo_encrypted_reading_io
        = Outcome.ok demo_encrypted_read_io
      ∧ header_handler demo_env false 1 demo_encrypted_read_io
        = Outcome.ok (demo_overrun_io, Pending.read_some { data := 1, size := 4 })
      ∧ (demo_overrun_io.read_buf = demo_encrypted_read_io.read_buf
          ∧ (1 : Nat) = demo_encrypted_read_io.read_buf.data + 1
          ∧ (1 : Nat) ≠ demo_overrun_io.read_buf.data)
      ∧ (run demo_env 4 [1, 1] [129, 131] Pending.idle demo_encrypted_io).get?.map
            (fun io => io.in_buf.data) = some [254, 131]
      ∧ (demo_env.decryption.process demo_encrypted_io.decryptor [129, 131]).2 = [128, 1] :=
  ⟨by decide, by decide,
   header_handler_overrun_stale_read_buf demo_env demo_encrypted_read_io demo_overrun_io 1
     { data := 1, size := 4 } (by decide) (by decide) (by decide) (by decide) (by decide)
     (by decide),
   by decide, by decide⟩

/-- C8, at a concrete input: the demo engine answers the demo encryption request; the
response frame is in `out_buf` in the clear and encryption is on afterwards, keyed with
the secret drawn. -/
theorem encryption_begin_response_in_clear_witness :
    demo_io.encrypted = false
      ∧ demo_env.load_key demo_begin.publicKey = true
      ∧ (randomize demo_env demo_io.rng shared_secret_size).2 = demo_secret
      ∧ ∃ io2, encryption_begin_handler demo_env demo_begin demo_io = Outcome.ok io2
          ∧ io2.encrypted = true
          ∧ io2.encryptor = demo_env.encryption.start demo_secret demo_secret
          ∧ io2.decryptor = demo_env.decryption.start demo_secret demo_secret
          ∧ io2.out_buf.data = wire_frame demo_env
              (demo_env.serverbound_encryption_begin
                { sharedSecret := demo_secret_encrypted, verifyToken := [6, 7] }) demo_io :=
  have h := encryption_begin_response_in_clear demo_env demo_begin demo_io 17 18
    demo_secret_encrypted [6, 7] (by decide) (by decide) (by decide) (by decide) (by decide)
    (by decide) (by decide) (by decide)
  ⟨by decide, by decide, by decide,
   by
     obtain ⟨io1, io2, -, hout, -, -, hret, -, hbuf, hon, henc, hdec, -⟩ := h
     exact ⟨io2, hret, hon, henc, hdec, by rw [hbuf, hout]; rfl⟩⟩

/-- C9, counterexample: with compression on, the frames the demo engine produces for the
demo packet (at the threshold: `[4, 0, 2, 7, 7]`; above it: `[5, 3, 120, 2, 7, 7]`) are
not decoded by the inbound path in the same mode: `read_packet_handler` throws
`"Compression Unimplemented"` and no packet is presented to the decoder. -/
theorem compressed_frame_not_decoded :
    (encode_packet demo_env demo_packet demo_compressed_io).get?.map
        (fun io => io.out_buf.data) = some [4, 0, 2, 7, 7]
      ∧ run demo_env 20 [] [4, 0, 2, 7, 7] Pending.idle demo_compressed_io
        = Outcome.throw "Compression Unimplemented" []
      ∧ (encode_packet demo_env demo_packet demo_deflating_io).get?.map
        (fun io => io.out_buf.data) = some [5, 3, 120, 2, 7, 7]
      ∧ run demo_env 20 [] [5, 3, 120, 2, 7, 7] Pending.idle demo_deflating_io
        = Outcome.throw "Compression Unimplemented" [] := by
  decide

/-- C9, at a concrete input: the demo engine frames the demo packet as `[3, 2, 7, 7]`;
handed to the loop in completions of one and two bytes, the decoder is presented with
the packet bytes `[2, 7, 7]` and the packet is emitted. -/
theorem plain_frame_round_trip_witness :
    demo_io.compressed = false ∧ demo_io.encrypted = false ∧ demo_io.in_buf.data = []
      ∧ demo_io.kill = false
      ∧ (∃ (rx : IOCore Nat Nat Nat) (steps : Nat) (chunks1 : List Nat),
          steps ≤ 7 ∧ rx.in_buf.data = [2, 7, 7]
          ∧ ∀ n, run demo_env (steps + n) [1, 2] [3, 2, 7, 7] Pending.idle demo_io
              = (decode_packet demo_env rx).bind
                  (fun io1 => run demo_env n chunks1 [] Pending.idle io1))
      ∧ events (run demo_env 20 [1, 2] [3, 2, 7, 7] Pending.idle demo_io)
          = [Event.packet State.LOGIN Direction.CLIENTBOUND 2 "mcd::Other *" [7, 7]] :=
  have h := (plain_frame_round_trip demo_env demo_packet demo_io [1, 2] (by decide)
    (by decide) (by decide) (by decide) (by decide) (by decide) (by decide) (by decide)).1
  ⟨by decide, by decide, by decide, by decide,
   by
     obtain ⟨tx, rx, frame, steps, chunks1, -, -, hframe, hs, hB, -, -, -, hrun⟩ := h
     have hf : frame = [3, 2, 7, 7] := by rw [hframe]; decide
     have hb : enc_varint demo_packet.packet_id ++ demo_packet.body = [2, 7, 7] := by decide
     rw [hf] at hrun
     rw [hb] at hB
     exact ⟨rx, steps, chunks1, hs, hB, hrun⟩,
   by decide⟩

end rkr
